import Mathlib

/-!
Verification of the ML4F transformer architecture (src/transformer_v2.py).

The PyTorch code is shallowly embedded: a tensor is a shape (list of
dimension sizes) together with a total entry function from multi-indices to
real numbers; entries outside the shape are never observed.  Floating-point
arithmetic is idealised as real arithmetic.  Tensor operations that can
raise shape errors in PyTorch (view, broadcast addition, matmul, masked_fill,
linear layers, layer norm) return an Option, with none standing for the
runtime shape error.  Dropout is modelled in training form: the sampled
Bernoulli keep-decisions are an explicit parameter, a kept entry is scaled
by 1/(1-p) and a dropped entry becomes 0; evaluation mode is the special
case keep = always true, p = 0.
-/

namespace ML4F

noncomputable section

/-- A tensor: a shape and a total entry function on multi-indices. -/
structure Tensor where
  shape : List ℕ
  entry : List ℕ → ℝ

/-- Product of the dimensions of a shape: the number of elements. -/
def prodL (l : List ℕ) : ℕ := l.prod

/-- Number of elements of a tensor. -/
def Tensor.numel (t : Tensor) : ℕ := prodL t.shape

/-- Row-major linearisation of a multi-index with respect to a shape. -/
def toIdx : List ℕ → List ℕ → ℕ
  | _ :: ds, i :: is => i * prodL ds + toIdx ds is
  | _, _ => 0

/-- Row-major delinearisation of a flat position into a multi-index. -/
def fromIdx : List ℕ → ℕ → List ℕ
  | [], _ => []
  | _ :: ds, n => n / prodL ds :: fromIdx ds (n % prodL ds)

/-- Resolution of target dimensions of torch.Tensor.view: at most one -1 is
allowed and is inferred from the number of elements; any other mismatch of
the element count is a runtime error (none). -/
def resolveDims (numel : ℕ) (dims : List ℤ) : Option (List ℕ) :=
  if dims.any fun v => v < -1 then none
  else
    match dims.count (-1) with
    | 0 => if prodL (dims.map Int.toNat) = numel then some (dims.map Int.toNat) else none
    | 1 =>
        let p := prodL ((dims.filter fun v => v ≠ -1).map Int.toNat)
        if 0 < p ∧ p ∣ numel then
          some (dims.map fun v => if v = -1 then numel / p else v.toNat)
        else none
    | _ + 2 => none

/-- torch.Tensor.contiguous().view(dims): reinterpret the row-major data of
the tensor under a new shape with the same number of elements. -/
def viewT (t : Tensor) (dims : List ℤ) : Option Tensor :=
  match resolveDims t.numel dims with
  | none => none
  | some s => some ⟨s, fun ix => t.entry (fromIdx t.shape (toIdx s ix))⟩

/-- Swap positions d1 and d2 of a list (used for both shapes and indices). -/
def swapIdx (d1 d2 : ℕ) (ix : List ℕ) : List ℕ :=
  (ix.set d1 (ix.getD d2 0)).set d2 (ix.getD d1 0)

/-- torch.Tensor.transpose(d1, d2). -/
def transposeT (t : Tensor) (d1 d2 : ℕ) : Tensor :=
  ⟨swapIdx d1 d2 t.shape, fun ix => t.entry (swapIdx d1 d2 ix)⟩

/-- Python slice endpoint resolution for a dimension of the given size:
negative endpoints count from the end, and endpoints are clamped. -/
def resolveSliceIdx (v : ℤ) (size : ℕ) : ℕ :=
  if v < 0 then (v + size).toNat else min v.toNat size

/-- Slice of one dimension, a[..., start:stop, ...], with Python clamping
semantics; stop = none means slicing to the end of the dimension. -/
def sliceD (t : Tensor) (d : ℕ) (start : ℤ) (stop : Option ℤ) : Tensor :=
  let sz := t.shape.getD d 0
  let a := resolveSliceIdx start sz
  let b := match stop with
    | none => sz
    | some s => resolveSliceIdx s sz
  ⟨t.shape.set d (b - a), fun ix => t.entry (ix.set d (ix.getD d 0 + a))⟩

/-- np.ones(shape). -/
def onesT (s : List ℕ) : Tensor := ⟨s, fun _ => 1⟩

/-- torch.zeros(shape). -/
def zerosT (s : List ℕ) : Tensor := ⟨s, fun _ => 0⟩

/-- np.triu(m, k) for a rank-3 array: entries strictly below the k-th
diagonal of the trailing two axes are zeroed. -/
def triu3 (t : Tensor) (k : ℤ) : Tensor :=
  ⟨t.shape, fun ix =>
    match ix with
    | [a, i, j] => if (i : ℤ) + k ≤ (j : ℤ) then t.entry [a, i, j] else 0
    | _ => 0⟩

/-- Broadcast combination of one pair of dimension sizes. -/
def combineDim (a b : ℕ) : Option ℕ :=
  if a = 1 then some b else if b = 1 then some a else if a = b then some a else none

/-- Broadcast of two shapes, both given reversed (trailing dimension first). -/
def bShapeR : List ℕ → List ℕ → Option (List ℕ)
  | [], ys => some ys
  | x :: xs, [] => some (x :: xs)
  | x :: xs, y :: ys =>
    match combineDim x y, bShapeR xs ys with
    | some d, some r => some (d :: r)
    | _, _ => none

/-- Broadcast of two shapes (PyTorch semantics, right-aligned). -/
def bShape (s1 s2 : List ℕ) : Option (List ℕ) :=
  (bShapeR s1.reverse s2.reverse).map List.reverse

/-- Index of a broadcast operand, reversed lists: a dimension of size 1
absorbs any index (i % 1 = 0), matching PyTorch broadcasting. -/
def bIdxR : List ℕ → List ℕ → List ℕ
  | [], _ => []
  | _, [] => []
  | d :: ds, i :: is => (i % d) :: bIdxR ds is

/-- Index into an operand of a broadcast result. -/
def bIdx (shape ix : List ℕ) : List ℕ :=
  (bIdxR shape.reverse ix.reverse).reverse

/-- Elementwise + with PyTorch broadcasting; incompatible shapes are a
runtime error (none). -/
def addB (t u : Tensor) : Option Tensor :=
  match bShape t.shape u.shape with
  | none => none
  | some s => some ⟨s, fun ix => t.entry (bIdx t.shape ix) + u.entry (bIdx u.shape ix)⟩

/-- Whether the first (reversed) shape is broadcastable to the second
(reversed) shape, as required of the mask of masked_fill. -/
def compatR : List ℕ → List ℕ → Bool
  | [], _ => true
  | _ :: _, [] => false
  | a :: as, b :: bs => (a = 1 || a = b) && compatR as bs

/-- torch.Tensor.masked_fill(mask == 0, v): entries at positions where the
broadcast mask is 0 are replaced by v. -/
def maskedFillT (t m : Tensor) (v : ℝ) : Option Tensor :=
  if compatR m.shape.reverse t.shape.reverse then
    some ⟨t.shape, fun ix => if m.entry (bIdx m.shape ix) = 0 then v else t.entry ix⟩
  else none

/-- F.softmax(t, dim = d): exponentials normalised along dimension d. -/
def softmaxT (d : ℕ) (t : Tensor) : Tensor :=
  ⟨t.shape, fun ix =>
    Real.exp (t.entry ix) /
      ∑ j ∈ Finset.range (t.shape.getD d 0), Real.exp (t.entry (ix.set d j))⟩

/-- torch.matmul for two rank-3 tensors with equal batch dimension. -/
def bmmT (a b : Tensor) : Option Tensor :=
  match a.shape, b.shape with
  | [p, n, m], [q, r, s] =>
    if p = q ∧ m = r then
      some ⟨[p, n, s], fun ix =>
        ∑ c ∈ Finset.range m,
          a.entry [ix.getD 0 0, ix.getD 1 0, c] * b.entry [ix.getD 0 0, c, ix.getD 2 0]⟩
    else none
  | _, _ => none

/-- Replace the last element of a multi-index (or shape). -/
def setLast (ix : List ℕ) (j : ℕ) : List ℕ := ix.dropLast ++ [j]

/-- Weights of an nn.Linear(inF, outF) with bias. -/
structure LinearP where
  outF : ℕ
  inF : ℕ
  W : ℕ → ℕ → ℝ
  bias : ℕ → ℝ

/-- nn.Linear with bias applied to the trailing dimension; a trailing
dimension different from inF is a runtime error. -/
def linearT (l : LinearP) (t : Tensor) : Option Tensor :=
  if t.shape ≠ [] ∧ t.shape.getLastD 0 = l.inF then
    some ⟨setLast t.shape l.outF, fun ix =>
      (∑ i ∈ Finset.range l.inF, l.W (ix.getLastD 0) i * t.entry (setLast ix i)) +
        l.bias (ix.getLastD 0)⟩
  else none

/-- Weights of an nn.Linear(inF, outF, bias = False). -/
structure LinearNBP where
  outF : ℕ
  inF : ℕ
  W : ℕ → ℕ → ℝ

/-- nn.Linear without bias applied to the trailing dimension. -/
def linearNB (l : LinearNBP) (t : Tensor) : Option Tensor :=
  if t.shape ≠ [] ∧ t.shape.getLastD 0 = l.inF then
    some ⟨setLast t.shape l.outF, fun ix =>
      ∑ i ∈ Finset.range l.inF, l.W (ix.getLastD 0) i * t.entry (setLast ix i)⟩
  else none

/-- nn.ReLU. -/
def reluT (t : Tensor) : Tensor := ⟨t.shape, fun ix => max (t.entry ix) 0⟩

/-- nn.Sigmoid. -/
def sigmoidT (t : Tensor) : Tensor :=
  ⟨t.shape, fun ix => 1 / (1 + Real.exp (-(t.entry ix)))⟩

/-- nn.Dropout in training form: keep holds the sampled Bernoulli
keep-decisions, kept entries are scaled by 1/(1-p), dropped entries are 0.
Evaluation mode is keep = fun _ => true with p = 0. -/
def dropoutT (keep : List ℕ → Bool) (p : ℝ) (t : Tensor) : Tensor :=
  ⟨t.shape, fun ix => if keep ix then t.entry ix / (1 - p) else 0⟩

/-- Affine per-feature parameters of an nn.LayerNorm(d). -/
structure NormW where
  g : ℕ → ℝ
  b : ℕ → ℝ

/-- nn.LayerNorm(d) over the trailing dimension, with the PyTorch default
eps = 1e-5; a trailing dimension different from d is a runtime error. -/
def layerNormT (d : ℕ) (w : NormW) (t : Tensor) : Option Tensor :=
  if t.shape ≠ [] ∧ t.shape.getLastD 0 = d then
    some ⟨t.shape, fun ix =>
      let mu := (∑ i ∈ Finset.range d, t.entry (setLast ix i)) / d
      let va := (∑ i ∈ Finset.range d, (t.entry (setLast ix i) - mu) ^ 2) / d
      (t.entry ix - mu) / Real.sqrt (va + 1e-5) * w.g (ix.getLastD 0) + w.b (ix.getLastD 0)⟩
  else none

/-- create_mask (src/transformer_v2.py:43-53): np.triu of np.ones with k = 1
on shape [1, x+1, y+1], sliced [:, :-1, 1:], then transposed on dims 1, 2.
astype, torch.from_numpy and Variable change neither shape nor values. -/
def create_mask (x y : ℕ) : Tensor :=
  let nopeak_mask := triu3 (onesT [1, x + 1, y + 1]) 1
  let nopeak := sliceD (sliceD nopeak_mask 1 0 (some (-1))) 2 1 none
  transposeT nopeak 1 2

/-- The pe buffer of PositionalEncoding (src/transformer_v2.py:24-36): even
feature indices hold sin(pos / 10000 ^ (2 i / d_model)), odd feature indices
hold cos(pos / 10000 ^ (2 (i + 1) / d_model)); the table is unsqueezed to
shape [1, window, d_model].  Entries outside the shape are unobservable. -/
def peTable (window d_model : ℕ) : Tensor :=
  ⟨[1, window, d_model], fun ix =>
    match ix with
    | [_, pos, i] =>
      if i % 2 = 0 then
        Real.sin ((pos : ℝ) / (10000 : ℝ) ^ ((2 * (i : ℝ)) / (d_model : ℝ)))
      else
        Real.cos ((pos : ℝ) / (10000 : ℝ) ^ ((2 * ((i : ℝ) + 1)) / (d_model : ℝ)))
    | _ => 0⟩

/-- PositionalEncoding.forward (src/transformer_v2.py:38-41):
x + pe[:, :seq_len] where seq_len = x.size(1). -/
def peForward (pe : Tensor) (x : Tensor) : Option Tensor :=
  addB x (sliceD pe 1 0 (some (x.shape.getD 1 0 : ℤ)))

/-- scaled_dot_product_attention (src/transformer_v2.py:63-83).  The batch
and head dimensions are merged, raw scores are Q K^T with no scaling factor,
mask == 0 positions are filled with -1e9 before softmax along dim 2, the
result multiplies V and is reshaped to [batch, seq_q, heads * d]. -/
def scaled_dot_product_attention (k q v : Tensor) (mask : Option Tensor) : Option Tensor :=
  match k.shape with
  | [b, _, h, d] =>
    (viewT (transposeT k 1 2) [((b * h : ℕ) : ℤ), -1, (d : ℤ)]).bind fun k3 =>
    (viewT (transposeT q 1 2) [((b * h : ℕ) : ℤ), -1, (d : ℤ)]).bind fun q3 =>
    (viewT (transposeT v 1 2) [((b * h : ℕ) : ℤ), -1, (d : ℤ)]).bind fun v3 =>
    (bmmT q3 (transposeT k3 1 2)).bind fun s0 =>
    (match mask with
      | none => some s0
      | some mk => maskedFillT s0 mk (-1e9)).bind fun s1 =>
    (bmmT (softmaxT 2 s1) v3).bind fun s2 =>
    (viewT s2 [(b : ℤ), (h : ℤ), -1, (d : ℤ)]).bind fun s3 =>
    viewT (transposeT s3 1 2) [(b : ℤ), -1, ((h * d : ℕ) : ℤ)]
  | _ => none

/-- Configuration and weights of a MultiHeadAttention instance
(src/transformer_v2.py:87-103).  The dropout submodule is represented by its
keep-decisions and rate; the source constructs it but never applies it in
forward. -/
structure MHAP where
  h : ℕ
  d_model : ℕ
  dropKeep : List ℕ → Bool
  dropP : ℝ
  mask : Option Tensor
  q_linear : LinearNBP
  v_linear : LinearNBP
  k_linear : LinearNBP
  unifyheads : LinearP

/-- Raw weights of one biased linear layer. -/
structure LinW where
  W : ℕ → ℕ → ℝ
  b : ℕ → ℝ

/-- Sampled weights of one MultiHeadAttention instance. -/
structure MHAW where
  wq : ℕ → ℕ → ℝ
  wv : ℕ → ℕ → ℝ
  wk : ℕ → ℕ → ℝ
  wu : ℕ → ℕ → ℝ
  bu : ℕ → ℝ
  keep : List ℕ → Bool

/-- MultiHeadAttention constructor wiring (src/transformer_v2.py:87-103):
q/k/v projections are Linear(d_model, heads * d_model, bias = False), the
unifying map is Linear(heads * d_model, d_model) with bias. -/
def mkMHA (heads d_model : ℕ) (w : MHAW) (dropout : ℝ) (mask : Option Tensor) : MHAP :=
  ⟨heads, d_model, w.keep, dropout, mask,
    ⟨heads * d_model, d_model, w.wq⟩,
    ⟨heads * d_model, d_model, w.wv⟩,
    ⟨heads * d_model, d_model, w.wk⟩,
    ⟨d_model, heads * d_model, w.wu, w.bu⟩⟩

/-- MultiHeadAttention.forward (src/transformer_v2.py:105-116): project k, q
and v, reshape each to [b, -1, heads, d_model], run the attention core with
the mask fixed at construction, unify the heads.  No dropout is applied. -/
def mhaForward (m : MHAP) (q k v : Tensor) : Option Tensor :=
  let b := q.shape.getD 0 0
  (linearNB m.k_linear k).bind fun k1 =>
  (viewT k1 [(b : ℤ), -1, (m.h : ℤ), (m.d_model : ℤ)]).bind fun k2 =>
  (linearNB m.q_linear q).bind fun q1 =>
  (viewT q1 [(b : ℤ), -1, (m.h : ℤ), (m.d_model : ℤ)]).bind fun q2 =>
  (linearNB m.v_linear v).bind fun v1 =>
  (viewT v1 [(b : ℤ), -1, (m.h : ℤ), (m.d_model : ℤ)]).bind fun v2 =>
  (scaled_dot_product_attention k2 q2 v2 m.mask).bind fun o =>
  linearT m.unifyheads o

/-- Weights of a FeedForward block. -/
structure FFP where
  lin1 : LinearP
  lin2 : LinearP
  keep : List ℕ → Bool
  p : ℝ

/-- Sampled weights of one FeedForward block. -/
structure FFW where
  w1 : LinW
  w2 : LinW
  keep : List ℕ → Bool

/-- FeedForward constructor wiring (src/transformer_v2.py:118-128):
Linear(d_model, 10 d_model) and Linear(10 d_model, d_model). -/
def mkFF (d_model : ℕ) (w : FFW) (p : ℝ) : FFP :=
  ⟨⟨10 * d_model, d_model, w.w1.W, w.w1.b⟩,
   ⟨d_model, 10 * d_model, w.w2.W, w.w2.b⟩, w.keep, p⟩

/-- FeedForward.forward (src/transformer_v2.py:130-132):
Linear → ReLU → Dropout → Linear. -/
def ffForward (f : FFP) (x : Tensor) : Option Tensor :=
  (linearT f.lin1 x).bind fun a =>
  linearT f.lin2 (dropoutT f.keep f.p (reluT a))

/-- Weights of one EncoderLayer. -/
structure EncLayerP where
  d_model : ℕ
  norm_1 : NormW
  norm_2 : NormW
  attn : MHAP
  ff : FFP
  k1 : List ℕ → Bool
  k2 : List ℕ → Bool
  p : ℝ

/-- Sampled weights of one EncoderLayer. -/
structure EncLayerW where
  n1 : NormW
  n2 : NormW
  attn : MHAW
  ff : FFW
  k1 : List ℕ → Bool
  k2 : List ℕ → Bool

/-- EncoderLayer constructor wiring (src/transformer_v2.py:134-149): the
self-attention has no mask; FeedForward is built with its default dropout
rate 0.1 (the source passes none). -/
def mkEncLayer (heads d_model : ℕ) (dropout : ℝ) (w : EncLayerW) : EncLayerP :=
  ⟨d_model, w.n1, w.n2,
    mkMHA heads d_model w.attn dropout none,
    mkFF d_model w.ff 0.1,
    w.k1, w.k2, dropout⟩

/-- EncoderLayer.forward (src/transformer_v2.py:151-156): pre-norm residual
attention sub-layer then pre-norm residual feed-forward sub-layer. -/
def encLayerForward (l : EncLayerP) (x : Tensor) : Option Tensor :=
  (layerNormT l.d_model l.norm_1 x).bind fun x2 =>
  (mhaForward l.attn x2 x2 x2).bind fun a =>
  (addB x (dropoutT l.k1 l.p a)).bind fun xr =>
  (layerNormT l.d_model l.norm_2 xr).bind fun x2b =>
  (ffForward l.ff x2b).bind fun fo =>
  addB xr (dropoutT l.k2 l.p fo)

/-- Weights of a stacked Encoder. -/
structure EncP where
  pe : Tensor
  layers : List EncLayerP
  d_model : ℕ
  norm : NormW

/-- Encoder constructor wiring (src/transformer_v2.py:158-167): one
positional-encoding table of length pe_window and N layer copies with
independent weights (get_clones). -/
def mkEncoder (pe_window heads d_model : ℕ) (dropout : ℝ) (ws : List EncLayerW)
    (nw : NormW) : EncP :=
  ⟨peTable pe_window d_model, ws.map (mkEncLayer heads d_model dropout), d_model, nw⟩

/-- The loop of Encoder.forward (src/transformer_v2.py:172-173): apply the
layer copies in order. -/
def stackEnc : List EncLayerP → Tensor → Option Tensor
  | [], x => some x
  | l :: ls, x => (encLayerForward l x).bind fun y => stackEnc ls y

/-- Encoder.forward (src/transformer_v2.py:169-174). -/
def encoderForward (e : EncP) (x : Tensor) : Option Tensor :=
  (peForward e.pe x).bind fun x0 =>
  (stackEnc e.layers x0).bind fun xs =>
  layerNormT e.d_model e.norm xs

/-- Weights of one DecoderLayer. -/
structure DecLayerP where
  d_model : ℕ
  norm_1 : NormW
  norm_2 : NormW
  norm_3 : NormW
  attn_1 : MHAP
  attn_2 : MHAP
  ff : FFP
  k1 : List ℕ → Bool
  k2 : List ℕ → Bool
  k3 : List ℕ → Bool
  p : ℝ

/-- Sampled weights of one DecoderLayer. -/
structure DecLayerW where
  n1 : NormW
  n2 : NormW
  n3 : NormW
  attn1 : MHAW
  attn2 : MHAW
  ff : FFW
  k1 : List ℕ → Bool
  k2 : List ℕ → Bool
  k3 : List ℕ → Bool

/-- DecoderLayer constructor wiring (src/transformer_v2.py:176-196): attn_1
carries the first_mask given at construction, attn_2 is unmasked; FeedForward
is built with its default dropout rate 0.1. -/
def mkDecLayer (heads d_model : ℕ) (first_mask : Tensor) (dropout : ℝ)
    (w : DecLayerW) : DecLayerP :=
  ⟨d_model, w.n1, w.n2, w.n3,
    mkMHA heads d_model w.attn1 dropout (some first_mask),
    mkMHA heads d_model w.attn2 dropout none,
    mkFF d_model w.ff 0.1,
    w.k1, w.k2, w.k3, dropout⟩

/-- DecoderLayer.forward (src/transformer_v2.py:198-206): masked
self-attention, cross-attention against the encoder output, feed-forward,
each as a pre-norm residual stage. -/
def decLayerForward (l : DecLayerP) (x enc_out : Tensor) : Option Tensor :=
  (layerNormT l.d_model l.norm_1 x).bind fun x2 =>
  (mhaForward l.attn_1 x2 x2 x2).bind fun a1 =>
  (addB x (dropoutT l.k1 l.p a1)).bind fun xr =>
  (layerNormT l.d_model l.norm_2 xr).bind fun x2b =>
  (mhaForward l.attn_2 x2b enc_out enc_out).bind fun a2 =>
  (addB xr (dropoutT l.k2 l.p a2)).bind fun xr2 =>
  (layerNormT l.d_model l.norm_3 xr2).bind fun x2c =>
  (ffForward l.ff x2c).bind fun fo =>
  addB xr2 (dropoutT l.k3 l.p fo)

/-- Weights of a stacked Decoder. -/
structure DecP where
  pe : Tensor
  layers : List DecLayerP
  d_model : ℕ
  norm : NormW

/-- Decoder constructor wiring (src/transformer_v2.py:208-217). -/
def mkDecoder (pe_window heads d_model : ℕ) (first_mask : Tensor) (dropout : ℝ)
    (ws : List DecLayerW) (nw : NormW) : DecP :=
  ⟨peTable pe_window d_model, ws.map (mkDecLayer heads d_model first_mask dropout),
    d_model, nw⟩

/-- The loop of Decoder.forward (src/transformer_v2.py:222-223). -/
def stackDec (enc_out : Tensor) : List DecLayerP → Tensor → Option Tensor
  | [], x => some x
  | l :: ls, x => (decLayerForward l x enc_out).bind fun y => stackDec enc_out ls y

/-- Decoder.forward (src/transformer_v2.py:219-224). -/
def decoderForward (dc : DecP) (x enc_out : Tensor) : Option Tensor :=
  (peForward dc.pe x).bind fun x0 =>
  (stackDec enc_out dc.layers x0).bind fun xs =>
  layerNormT dc.d_model dc.norm xs

/-- Configuration and weights of an Ml4fTransformer instance. -/
structure Ml4fP where
  experiment : String
  d_model_d : ℕ
  d_model_e : ℕ
  context_window : ℕ
  pred_window : ℕ
  dynamicencode : EncP
  learnLin : LinearP
  learnKeep : List ℕ → Bool
  learnP : ℝ
  decoder : DecP
  mapLin : LinearP
  mapKeep : List ℕ → Bool
  mapP : ℝ

/-- Sampled weights of an Ml4fTransformer. -/
structure Ml4fW where
  encW : List EncLayerW
  encNorm : NormW
  learnW : LinW
  learnKeep : List ℕ → Bool
  decW : List DecLayerW
  decNorm : NormW
  mapW : LinW
  mapKeep : List ℕ → Bool

/-- The default value of the first_mask argument of Ml4fTransformer
(src/transformer_v2.py:239): create_mask(5, 5), a fixed constant evaluated
once when the argument list is elaborated. -/
def defaultFirstMask : Tensor := create_mask 5 5

/-- Ml4fTransformer constructor wiring (src/transformer_v2.py:238-271): the
bridge is Linear(context_window * d_model_e, pred_window * d_model_d), the
final map is Linear(pred_window, pred_window); the encoder works at width
d_model_e and the decoder at width d_model_d, both with positional tables of
length pe_window. -/
def mkMl4f (experiment : String) (d_model_e d_model_d heads : ℕ) (first_mask : Tensor)
    (dropout : ℝ) (context_window pred_window pe_window : ℕ) (w : Ml4fW) : Ml4fP :=
  ⟨experiment, d_model_d, d_model_e, context_window, pred_window,
    mkEncoder pe_window heads d_model_e dropout w.encW w.encNorm,
    ⟨pred_window * d_model_d, context_window * d_model_e, w.learnW.W, w.learnW.b⟩,
    w.learnKeep, dropout,
    mkDecoder pe_window heads d_model_d first_mask dropout w.decW w.decNorm,
    ⟨pred_window, pred_window, w.mapW.W, w.mapW.b⟩,
    w.mapKeep, dropout⟩

/-- The final mapping block self.map (src/transformer_v2.py:259-271):
Linear → ReLU → Dropout for experiment = "return", with a Sigmoid appended
for any other experiment variant. -/
def mapForward (m : Ml4fP) (t : Tensor) : Option Tensor :=
  (linearT m.mapLin t).bind fun a =>
  if m.experiment = "return" then some (dropoutT m.mapKeep m.mapP (reluT a))
  else some (sigmoidT (dropoutT m.mapKeep m.mapP (reluT a)))

/-- Ml4fTransformer.forward (src/transformer_v2.py:273-289). -/
def ml4fForward (m : Ml4fP) (x y : Tensor) : Option Tensor :=
  let b := x.shape.getD 0 0
  (encoderForward m.dynamicencode x).bind fun enc_output =>
  (viewT enc_output [(b : ℤ), -1]).bind fun e1 =>
  (linearT m.learnLin e1).bind fun e2 =>
  (viewT (dropoutT m.learnKeep m.learnP (reluT e2))
      [-1, (m.pred_window : ℤ), (m.d_model_d : ℤ)]).bind fun enc_map =>
  (decoderForward m.decoder y enc_map).bind fun dec_output =>
  (viewT dec_output [(b : ℤ), (m.pred_window : ℤ)]).bind fun dflat =>
  mapForward m dflat

/-! Index arithmetic lemmas. -/

theorem prodL_nil : prodL [] = 1 := rfl

theorem prodL_cons (a : ℕ) (l : List ℕ) : prodL (a :: l) = a * prodL l := by
  simp [prodL]

theorem prodL_append (l1 l2 : List ℕ) : prodL (l1 ++ l2) = prodL l1 * prodL l2 := by
  simp [prodL]

theorem mul_add_div_eq (a r K : ℕ) (hr : r < K) : (a * K + r) / K = a := by
  have hK : 0 < K := lt_of_le_of_lt (Nat.zero_le r) hr
  rw [mul_comm, Nat.mul_add_div hK, Nat.div_eq_of_lt hr, Nat.add_zero]

theorem mul_add_mod_eq (a r K : ℕ) (hr : r < K) : (a * K + r) % K = r := by
  rw [mul_comm, Nat.mul_add_mod, Nat.mod_eq_of_lt hr]

theorem idx_lt_mul {i a l b : ℕ} (hi : i < a) (hl : l < b) : i * b + l < a * b := by
  calc i * b + l < i * b + b := by omega
    _ = (i + 1) * b := by ring
    _ ≤ a * b := Nat.mul_le_mul_right b hi

/-- Embedding of a list of sizes into the signed dimension lists of view. -/
def castList (l : List ℕ) : List ℤ := l.map (Nat.cast : ℕ → ℤ)

theorem castList_nil : castList [] = [] := rfl

theorem castList_cons (a : ℕ) (l : List ℕ) :
    castList (a :: l) = (a : ℤ) :: castList l := rfl

theorem castList_toNat (l : List ℕ) : (castList l).map Int.toNat = l := by
  induction l with
  | nil => rfl
  | cons a t ih => simp only [castList_cons, List.map_cons, Int.toNat_natCast, ih]

theorem castList_any (l : List ℕ) : ((castList l).any fun v => v < -1) = false := by
  induction l with
  | nil => rfl
  | cons a t ih =>
    simp only [castList_cons, List.any_cons, ih, Bool.or_false, decide_eq_false_iff_not]
    have := Int.natCast_nonneg a
    omega

theorem castList_count (l : List ℕ) : (castList l).count (-1) = 0 := by
  induction l with
  | nil => rfl
  | cons a t ih =>
    rw [castList_cons, List.count_cons, ih]
    have h : ¬ ((a : ℤ) = -1) := by
      have := Int.natCast_nonneg a
      omega
    simp [h]

theorem castList_ne_neg (l : List ℕ) : ∀ v ∈ castList l, ¬ v = -1 := by
  intro v hv
  rw [castList, List.mem_map] at hv
  obtain ⟨n, _, rfl⟩ := hv
  have h2 := Int.natCast_nonneg n
  omega

theorem castList_filter (l : List ℕ) :
    (castList l).filter (fun v => v ≠ -1) = castList l := by
  rw [List.filter_eq_self]
  intro v hv
  simpa using castList_ne_neg l v hv

theorem castList_replace (l : List ℕ) (N : ℕ) :
    (castList l).map (fun v => if v = -1 then N else v.toNat) = l := by
  induction l with
  | nil => rfl
  | cons a t ih =>
    rw [castList_cons, List.map_cons]
    have h : ¬ ((a : ℤ) = -1) := by
      have := Int.natCast_nonneg a
      omega
    rw [if_neg h, Int.toNat_natCast, ih]

theorem castList_prod (l : List ℕ) : prodL ((castList l).map Int.toNat) = prodL l := by
  rw [castList_toNat]

/-- resolveDims on a list of nonnegative dimensions. -/
theorem resolveDims_pos (numel : ℕ) (l : List ℕ) :
    resolveDims numel (castList l) = if prodL l = numel then some l else none := by
  rw [resolveDims, castList_any]
  simp only [Bool.false_eq_true, if_false, castList_count]
  rw [castList_toNat]

/-- resolveDims on a list of nonnegative dimensions with a single -1. -/
theorem resolveDims_neg (numel : ℕ) (l1 l2 : List ℕ) :
    resolveDims numel (castList l1 ++ -1 :: castList l2) =
      if 0 < prodL l1 * prodL l2 ∧ prodL l1 * prodL l2 ∣ numel then
        some (l1 ++ numel / (prodL l1 * prodL l2) :: l2)
      else none := by
  have hany : ((castList l1 ++ -1 :: castList l2).any fun v => v < -1) = false := by
    rw [List.any_append, castList_any, List.any_cons, castList_any]
    simp
  have hcount : (castList l1 ++ -1 :: castList l2).count (-1) = 1 := by
    rw [List.count_append, castList_count, List.count_cons, castList_count]
    simp
  have hfil : (castList l1 ++ -1 :: castList l2).filter (fun v => v ≠ -1) =
      castList l1 ++ castList l2 := by
    rw [List.filter_append, castList_filter, List.filter_cons]
    simp only [ne_eq, not_true_eq_false]
    rw [if_neg (by simp), castList_filter]
  have hprod : prodL (((castList l1 ++ castList l2)).map Int.toNat) =
      prodL l1 * prodL l2 := by
    rw [List.map_append, castList_toNat, castList_toNat, prodL_append]
  rw [resolveDims, hany]
  simp only [Bool.false_eq_true, if_false, hcount, hfil, hprod]
  by_cases h : 0 < prodL l1 * prodL l2 ∧ prodL l1 * prodL l2 ∣ numel
  · rw [if_pos h, if_pos h, List.map_append, List.map_cons, castList_replace,
      castList_replace, if_pos rfl]
  · rw [if_neg h, if_neg h]

/-! Concrete resolveDims patterns for the view calls of the source. -/

theorem resolveDims_mid3 (n a c : ℕ) :
    resolveDims n [(a : ℤ), -1, (c : ℤ)] =
      if 0 < a * c ∧ a * c ∣ n then some [a, n / (a * c), c] else none := by
  have h := resolveDims_neg n [a] [c]
  simpa [prodL, castList] using h

theorem resolveDims_head3 (n a c : ℕ) :
    resolveDims n [-1, (a : ℤ), (c : ℤ)] =
      if 0 < a * c ∧ a * c ∣ n then some [n / (a * c), a, c] else none := by
  have h := resolveDims_neg n [] [a, c]
  simpa [prodL, castList] using h

theorem resolveDims_pair (n b : ℕ) :
    resolveDims n [(b : ℤ), -1] =
      if 0 < b ∧ b ∣ n then some [b, n / b] else none := by
  have h := resolveDims_neg n [b] []
  simpa [prodL, castList] using h

theorem resolveDims_mid4 (n a b c : ℕ) :
    resolveDims n [(a : ℤ), (b : ℤ), -1, (c : ℤ)] =
      if 0 < a * b * c ∧ a * b * c ∣ n then some [a, b, n / (a * b * c), c] else none := by
  have h := resolveDims_neg n [a, b] [c]
  have e : prodL [a, b] * prodL [c] = a * b * c := by simp [prodL]
  rw [show ((castList [a, b] ++ -1 :: castList [c]) : List ℤ) =
      [(a : ℤ), (b : ℤ), -1, (c : ℤ)] from rfl, e] at h
  exact h

theorem resolveDims_snd4 (n a b c : ℕ) :
    resolveDims n [(a : ℤ), -1, (b : ℤ), (c : ℤ)] =
      if 0 < a * (b * c) ∧ a * (b * c) ∣ n then some [a, n / (a * (b * c)), b, c]
      else none := by
  have h := resolveDims_neg n [a] [b, c]
  have e : prodL [a] * prodL [b, c] = a * (b * c) := by simp [prodL]
  rw [show ((castList [a] ++ -1 :: castList [b, c]) : List ℤ) =
      [(a : ℤ), -1, (b : ℤ), (c : ℤ)] from rfl, e] at h
  exact h

theorem resolveDims_all2 (n a b : ℕ) :
    resolveDims n [(a : ℤ), (b : ℤ)] =
      if a * b = n then some [a, b] else none := by
  have h := resolveDims_pos n [a, b]
  simpa [prodL, castList] using h

/-! Row-major index correspondences for the view calls of the source. -/

theorem swapIdx12_4 (a b c d : ℕ) : swapIdx 1 2 [a, b, c, d] = [a, c, b, d] := rfl

theorem swapIdx12_3 (a b c : ℕ) : swapIdx 1 2 [a, b, c] = [a, c, b] := rfl

theorem fromIdx_merge4 (B H s D m i l : ℕ) (hm : m < B * H) (hi : i < s) (hl : l < D) :
    fromIdx [B, H, s, D] (toIdx [B * H, s, D] [m, i, l]) = [m / H, m % H, i, l] := by
  have hH : 0 < H := by
    rcases Nat.eq_zero_or_pos H with h0 | h0
    · rw [h0, mul_zero] at hm; omega
    · exact h0
  have hr : i * D + l < s * D := idx_lt_mul hi hl
  have hmod : m % H < H := Nat.mod_lt m hH
  have h2 : m % H * (s * D) + (i * D + l) < H * (s * D) := idx_lt_mul hmod hr
  simp only [toIdx, fromIdx, prodL_cons, prodL_nil, mul_one, add_zero, Nat.div_one]
  have hn : m * (s * D) + (i * D + l) =
      m / H * (H * (s * D)) + (m % H * (s * D) + (i * D + l)) := by
    conv_lhs => rw [(Nat.div_add_mod m H).symm]
    ring
  rw [hn, mul_add_div_eq _ _ _ h2, mul_add_mod_eq _ _ _ h2, mul_add_div_eq _ _ _ hr,
    mul_add_mod_eq _ _ _ hr, mul_add_div_eq _ _ _ hl, mul_add_mod_eq _ _ _ hl]

theorem fromIdx_split4 (B H s D bb hh i e : ℕ) (hh2 : hh < H) (hi : i < s) (he : e < D) :
    fromIdx [B * H, s, D] (toIdx [B, H, s, D] [bb, hh, i, e]) = [bb * H + hh, i, e] := by
  have hr : i * D + e < s * D := idx_lt_mul hi he
  simp only [toIdx, fromIdx, prodL_cons, prodL_nil, mul_one, add_zero, Nat.div_one]
  have hn : bb * (H * (s * D)) + (hh * (s * D) + (i * D + e)) =
      (bb * H + hh) * (s * D) + (i * D + e) := by ring
  rw [hn, mul_add_div_eq _ _ _ hr, mul_add_mod_eq _ _ _ hr, mul_add_div_eq _ _ _ he,
    mul_add_mod_eq _ _ _ he]

theorem fromIdx_split_last (b s h d bb t hh l : ℕ) (ht : t < s) (hh2 : hh < h)
    (hl : l < d) :
    fromIdx [b, s, h * d] (toIdx [b, s, h, d] [bb, t, hh, l]) = [bb, t, hh * d + l] := by
  have hr : hh * d + l < h * d := idx_lt_mul hh2 hl
  have hr2 : t * (h * d) + (hh * d + l) < s * (h * d) := idx_lt_mul ht hr
  simp only [toIdx, fromIdx, prodL_cons, prodL_nil, mul_one, add_zero, Nat.div_one]
  have hn : bb * (s * (h * d)) + (t * (h * d) + (hh * d + l)) =
      bb * (s * (h * d)) + (t * (h * d) + (hh * d + l)) := rfl
  rw [mul_add_div_eq _ _ _ hr2, mul_add_mod_eq _ _ _ hr2, mul_add_div_eq _ _ _ hr,
    mul_add_mod_eq _ _ _ hr]

theorem fromIdx_flatten_last (b s h d bb t c : ℕ) (ht : t < s) (hc : c < h * d) :
    fromIdx [b, s, h, d] (toIdx [b, s, h * d] [bb, t, c]) = [bb, t, c / d, c % d] := by
  have hr : t * (h * d) + c < s * (h * d) := idx_lt_mul ht hc
  simp only [toIdx, fromIdx, prodL_cons, prodL_nil, mul_one, add_zero, Nat.div_one]
  rw [mul_add_div_eq _ _ _ hr, mul_add_mod_eq _ _ _ hr, mul_add_div_eq _ _ _ hc,
    mul_add_mod_eq _ _ _ hc]

/-! Characterisation lemmas for the tensor operations. -/

theorem setLast_three (a b c j : ℕ) : setLast [a, b, c] j = [a, b, j] := rfl

theorem setLast_two (a b j : ℕ) : setLast [a, b] j = [a, j] := rfl

theorem linearT_some (l : LinearP) (t : Tensor) (h1 : t.shape ≠ [])
    (h2 : t.shape.getLastD 0 = l.inF) :
    ∃ u, linearT l t = some u ∧ u.shape = setLast t.shape l.outF ∧
      ∀ ix, u.entry ix =
        (∑ i ∈ Finset.range l.inF, l.W (ix.getLastD 0) i * t.entry (setLast ix i)) +
          l.bias (ix.getLastD 0) := by
  rw [linearT, if_pos (show _ ∧ _ from ⟨h1, h2⟩)]
  exact ⟨_, rfl, rfl, fun ix => rfl⟩

theorem linearNB_some (l : LinearNBP) (t : Tensor) (h1 : t.shape ≠ [])
    (h2 : t.shape.getLastD 0 = l.inF) :
    ∃ u, linearNB l t = some u ∧ u.shape = setLast t.shape l.outF ∧
      ∀ ix, u.entry ix =
        ∑ i ∈ Finset.range l.inF, l.W (ix.getLastD 0) i * t.entry (setLast ix i) := by
  rw [linearNB, if_pos (show _ ∧ _ from ⟨h1, h2⟩)]
  exact ⟨_, rfl, rfl, fun ix => rfl⟩

theorem layerNormT_some (d : ℕ) (w : NormW) (t : Tensor) (h1 : t.shape ≠ [])
    (h2 : t.shape.getLastD 0 = d) :
    ∃ u, layerNormT d w t = some u ∧ u.shape = t.shape := by
  rw [layerNormT, if_pos (show _ ∧ _ from ⟨h1, h2⟩)]
  exact ⟨_, rfl, rfl⟩

theorem reluT_shape (t : Tensor) : (reluT t).shape = t.shape := rfl

theorem sigmoidT_shape (t : Tensor) : (sigmoidT t).shape = t.shape := rfl

theorem dropoutT_shape (k : List ℕ → Bool) (p : ℝ) (t : Tensor) :
    (dropoutT k p t).shape = t.shape := rfl

theorem softmaxT_shape (d : ℕ) (t : Tensor) : (softmaxT d t).shape = t.shape := rfl

theorem combineDim_self (a : ℕ) : combineDim a a = some a := by
  by_cases h : a = 1
  · subst h; rfl
  · simp [combineDim, h]

theorem combineDim_one (a : ℕ) : combineDim a 1 = some a := by
  by_cases h : a = 1
  · subst h; rfl
  · simp [combineDim, h]

theorem bShapeR_self (l : List ℕ) : bShapeR l l = some l := by
  induction l with
  | nil => rfl
  | cons a t ih => simp [bShapeR, combineDim_self, ih]

theorem bShape_self (s : List ℕ) : bShape s s = some s := by
  rw [bShape, bShapeR_self]
  simp

theorem addB_same (t u : Tensor) (h : u.shape = t.shape) :
    ∃ r, addB t u = some r ∧ r.shape = t.shape ∧
      ∀ ix, r.entry ix = t.entry (bIdx t.shape ix) + u.entry (bIdx u.shape ix) := by
  rw [addB, h, bShape_self]
  exact ⟨_, rfl, rfl, fun ix => rfl⟩

theorem bShape_bcast (bb L D : ℕ) : bShape [bb, L, D] [1, L, D] = some [bb, L, D] := by
  rw [bShape]
  have h1 : ([bb, L, D] : List ℕ).reverse = [D, L, bb] := rfl
  have h2 : ([1, L, D] : List ℕ).reverse = [D, L, 1] := rfl
  rw [h1, h2]
  simp [bShapeR, combineDim_self, combineDim_one]

theorem addB_bcast (t u : Tensor) (bb L D : ℕ) (ht : t.shape = [bb, L, D])
    (hu : u.shape = [1, L, D]) :
    ∃ r, addB t u = some r ∧ r.shape = [bb, L, D] ∧
      ∀ ix, r.entry ix = t.entry (bIdx t.shape ix) + u.entry (bIdx u.shape ix) := by
  rw [addB, ht, hu, bShape_bcast]
  exact ⟨_, rfl, rfl, fun ix => rfl⟩

theorem bIdx_id2 (a b i j : ℕ) (hi : i < a) (hj : j < b) :
    bIdx [a, b] [i, j] = [i, j] := by
  have h : bIdx [a, b] [i, j] = [i % a, j % b] := rfl
  rw [h, Nat.mod_eq_of_lt hi, Nat.mod_eq_of_lt hj]

theorem bIdx_id3 (a b c i j k : ℕ) (hi : i < a) (hj : j < b) (hk : k < c) :
    bIdx [a, b, c] [i, j, k] = [i, j, k] := by
  have h : bIdx [a, b, c] [i, j, k] = [i % a, j % b, k % c] := rfl
  rw [h, Nat.mod_eq_of_lt hi, Nat.mod_eq_of_lt hj, Nat.mod_eq_of_lt hk]

theorem bIdx_pe (L D bb p i : ℕ) (hp : p < L) (hi : i < D) :
    bIdx [1, L, D] [bb, p, i] = [0, p, i] := by
  have h : bIdx [1, L, D] [bb, p, i] = [bb % 1, p % L, i % D] := rfl
  rw [h, Nat.mod_eq_of_lt hp, Nat.mod_eq_of_lt hi, Nat.mod_one]

theorem compatR_mask (sk sq BH : ℕ) : compatR [sk, sq, 1] [sk, sq, BH] = true := by
  simp [compatR]

theorem maskedFillT_some (t m : Tensor) (v : ℝ) (BH sq sk : ℕ)
    (ht : t.shape = [BH, sq, sk]) (hm : m.shape = [1, sq, sk]) :
    ∃ u, maskedFillT t m v = some u ∧ u.shape = t.shape ∧
      ∀ ix, u.entry ix = if m.entry (bIdx m.shape ix) = 0 then v else t.entry ix := by
  rw [maskedFillT, if_pos]
  · exact ⟨_, rfl, rfl, fun ix => rfl⟩
  · rw [ht, hm]
    have h1 : ([1, sq, sk] : List ℕ).reverse = [sk, sq, 1] := rfl
    have h2 : ([BH, sq, sk] : List ℕ).reverse = [sk, sq, BH] := rfl
    rw [h1, h2, compatR_mask]

theorem bmmT_some (a b : Tensor) (P n m r : ℕ) (ha : a.shape = [P, n, m])
    (hb : b.shape = [P, m, r]) :
    ∃ u, bmmT a b = some u ∧ u.shape = [P, n, r] ∧
      ∀ ix, u.entry ix = ∑ c ∈ Finset.range m,
        a.entry [ix.getD 0 0, ix.getD 1 0, c] * b.entry [ix.getD 0 0, c, ix.getD 2 0] := by
  refine ⟨⟨[P, n, r], fun ix => ∑ c ∈ Finset.range m,
    a.entry [ix.getD 0 0, ix.getD 1 0, c] * b.entry [ix.getD 0 0, c, ix.getD 2 0]⟩,
    ?_, rfl, fun ix => rfl⟩
  rw [bmmT, ha, hb]
  exact if_pos ⟨rfl, rfl⟩

/-! The three reshaping steps of the attention core. -/

theorem mergeHeads (t : Tensor) (B s H D : ℕ) (hB : 0 < B) (hH : 0 < H) (hD : 0 < D)
    (ht : t.shape = [B, s, H, D]) :
    ∃ u, viewT (transposeT t 1 2) [((B * H : ℕ) : ℤ), -1, (D : ℤ)] = some u ∧
      u.shape = [B * H, s, D] ∧
      ∀ m i l, m < B * H → i < s → l < D →
        u.entry [m, i, l] = t.entry [m / H, i, m % H, l] := by
  have hsh : (transposeT t 1 2).shape = [B, H, s, D] := by
    show swapIdx 1 2 t.shape = _
    rw [ht, swapIdx12_4]
  have hnum : (transposeT t 1 2).numel = B * H * D * s := by
    rw [Tensor.numel, hsh]
    simp [prodL]
    ring
  have hpos : 0 < B * H * D := by positivity
  have hres : resolveDims (transposeT t 1 2).numel [((B * H : ℕ) : ℤ), -1, (D : ℤ)] =
      some [B * H, s, D] := by
    rw [resolveDims_mid3]
    rw [if_pos ⟨hpos, ⟨s, by rw [hnum]⟩⟩, hnum, Nat.mul_div_cancel_left s hpos]
  refine ⟨⟨[B * H, s, D], fun ix =>
    (transposeT t 1 2).entry (fromIdx (transposeT t 1 2).shape (toIdx [B * H, s, D] ix))⟩,
    ?_, rfl, ?_⟩
  · rw [viewT, hres]
  · intro m i l hm hi hl
    show (transposeT t 1 2).entry
      (fromIdx (transposeT t 1 2).shape (toIdx [B * H, s, D] [m, i, l])) = _
    rw [hsh, fromIdx_merge4 B H s D m i l hm hi hl]
    show t.entry (swapIdx 1 2 [m / H, m % H, i, l]) = _
    rw [swapIdx12_4]

theorem splitHeads (t : Tensor) (B H s D : ℕ) (hB : 0 < B) (hH : 0 < H) (hD : 0 < D)
    (ht : t.shape = [B * H, s, D]) :
    ∃ u, viewT t [(B : ℤ), (H : ℤ), -1, (D : ℤ)] = some u ∧
      u.shape = [B, H, s, D] ∧
      ∀ bb hh i e, hh < H → i < s → e < D →
        u.entry [bb, hh, i, e] = t.entry [bb * H + hh, i, e] := by
  have hnum : t.numel = B * H * D * s := by
    rw [Tensor.numel, ht]
    simp [prodL]
    ring
  have hpos : 0 < B * H * D := by positivity
  have hres : resolveDims t.numel [(B : ℤ), (H : ℤ), -1, (D : ℤ)] =
      some [B, H, s, D] := by
    rw [resolveDims_mid4]
    rw [if_pos ⟨hpos, ⟨s, by rw [hnum]⟩⟩, hnum, Nat.mul_div_cancel_left s hpos]
  refine ⟨⟨[B, H, s, D], fun ix =>
    t.entry (fromIdx t.shape (toIdx [B, H, s, D] ix))⟩, ?_, rfl, ?_⟩
  · rw [viewT, hres]
  · intro bb hh i e hh2 hi he
    show t.entry (fromIdx t.shape (toIdx [B, H, s, D] [bb, hh, i, e])) = _
    rw [ht, fromIdx_split4 B H s D bb hh i e hh2 hi he]

theorem flattenHeads (t : Tensor) (B H s D : ℕ) (hB : 0 < B) (hH : 0 < H) (hD : 0 < D)
    (ht : t.shape = [B, H, s, D]) :
    ∃ u, viewT (transposeT t 1 2) [(B : ℤ), -1, ((H * D : ℕ) : ℤ)] = some u ∧
      u.shape = [B, s, H * D] ∧
      ∀ bb i c, i < s → c < H * D →
        u.entry [bb, i, c] = t.entry [bb, c / D, i, c % D] := by
  have hsh : (transposeT t 1 2).shape = [B, s, H, D] := by
    show swapIdx 1 2 t.shape = _
    rw [ht, swapIdx12_4]
  have hnum : (transposeT t 1 2).numel = B * (H * D) * s := by
    rw [Tensor.numel, hsh]
    simp [prodL]
    ring
  have hpos : 0 < B * (H * D) := by positivity
  have hres : resolveDims (transposeT t 1 2).numel [(B : ℤ), -1, ((H * D : ℕ) : ℤ)] =
      some [B, s, H * D] := by
    rw [resolveDims_mid3]
    rw [if_pos ⟨hpos, ⟨s, by rw [hnum]⟩⟩, hnum, Nat.mul_div_cancel_left s hpos]
  refine ⟨⟨[B, s, H * D], fun ix =>
    (transposeT t 1 2).entry (fromIdx (transposeT t 1 2).shape (toIdx [B, s, H * D] ix))⟩,
    ?_, rfl, ?_⟩
  · rw [viewT, hres]
  · intro bb i c hi hc
    show (transposeT t 1 2).entry
      (fromIdx (transposeT t 1 2).shape (toIdx [B, s, H * D] [bb, i, c])) = _
    rw [hsh, fromIdx_flatten_last B s H D bb i c hi hc]
    show t.entry (swapIdx 1 2 [bb, i, c / D, c % D]) = _
    rw [swapIdx12_4]

/-! Reference formulas for the attention core, written from the specification
of scaled dot-product attention. -/

/-- Raw unscaled score of head hh between query position i and key position j:
the plain dot product of the projected query and key rows, with no 1/sqrt(d)
factor. -/
def rawScore (q k : Tensor) (D bb hh i j : ℕ) : ℝ :=
  ∑ l ∈ Finset.range D, q.entry [bb, i, hh, l] * k.entry [bb, j, hh, l]

/-- Score after the mask: positions where the [1, seq_q, seq_k] mask is 0 are
replaced by the large negative constant -1e9. -/
def maskScore (mask : Option Tensor) (q k : Tensor) (D bb hh i j : ℕ) : ℝ :=
  match mask with
  | none => rawScore q k D bb hh i j
  | some mk => if mk.entry [0, i, j] = 0 then -1e9 else rawScore q k D bb hh i j

/-- Softmax weight along the key axis. -/
def smWeight (mask : Option Tensor) (q k : Tensor) (D sk bb hh i j : ℕ) : ℝ :=
  Real.exp (maskScore mask q k D bb hh i j) /
    ∑ j2 ∈ Finset.range sk, Real.exp (maskScore mask q k D bb hh i j2)

/-- Reference output entry of the attention core: the softmax-weighted
average of the value rows of head hh. -/
def sdpaSpecEntry (mask : Option Tensor) (q k v : Tensor) (D sk bb hh i e : ℕ) : ℝ :=
  ∑ j ∈ Finset.range sk, smWeight mask q k D sk bb hh i j * v.entry [bb, j, hh, e]

theorem sdpa_eq_chain (k q v : Tensor) (mask : Option Tensor) (B sk H D : ℕ)
    (hk : k.shape = [B, sk, H, D]) :
    scaled_dot_product_attention k q v mask =
      (viewT (transposeT k 1 2) [((B * H : ℕ) : ℤ), -1, (D : ℤ)]).bind fun k3 =>
      (viewT (transposeT q 1 2) [((B * H : ℕ) : ℤ), -1, (D : ℤ)]).bind fun q3 =>
      (viewT (transposeT v 1 2) [((B * H : ℕ) : ℤ), -1, (D : ℤ)]).bind fun v3 =>
      (bmmT q3 (transposeT k3 1 2)).bind fun s0 =>
      (match mask with
        | none => some s0
        | some mk => maskedFillT s0 mk (-1e9)).bind fun s1 =>
      (bmmT (softmaxT 2 s1) v3).bind fun s2 =>
      (viewT s2 [(B : ℤ), (H : ℤ), -1, (D : ℤ)]).bind fun s3 =>
      viewT (transposeT s3 1 2) [(B : ℤ), -1, ((H * D : ℕ) : ℤ)] := by
  rw [scaled_dot_product_attention, hk]

/-- Full characterisation of the attention core: for well-shaped inputs it
succeeds, returns shape [B, seq_q, H * D], and every entry is the reference
softmax-weighted value average over unscaled masked scores. -/
theorem sdpa_char (B sq sk H D : ℕ) (k q v : Tensor) (mask : Option Tensor)
    (hB : 0 < B) (hH : 0 < H) (hD : 0 < D)
    (hk : k.shape = [B, sk, H, D]) (hq : q.shape = [B, sq, H, D])
    (hv : v.shape = [B, sk, H, D])
    (hm : mask = none ∨ ∃ mk, mask = some mk ∧ mk.shape = [1, sq, sk]) :
    ∃ out, scaled_dot_product_attention k q v mask = some out ∧
      out.shape = [B, sq, H * D] ∧
      ∀ bb hh i e, bb < B → hh < H → i < sq → e < D →
        out.entry [bb, i, hh * D + e] = sdpaSpecEntry mask q k v D sk bb hh i e := by
  obtain ⟨k3, hk3, hk3s, hk3e⟩ := mergeHeads k B sk H D hB hH hD hk
  obtain ⟨q3, hq3, hq3s, hq3e⟩ := mergeHeads q B sq H D hB hH hD hq
  obtain ⟨v3, hv3, hv3s, hv3e⟩ := mergeHeads v B sk H D hB hH hD hv
  have hk3T : (transposeT k3 1 2).shape = [B * H, D, sk] := by
    show swapIdx 1 2 k3.shape = _
    rw [hk3s, swapIdx12_3]
  obtain ⟨s0, hs0, hs0s, hs0e⟩ := bmmT_some q3 (transposeT k3 1 2) (B * H) sq D sk hq3s hk3T
  have hs0raw : ∀ m i j, m < B * H → i < sq → j < sk →
      s0.entry [m, i, j] = rawScore q k D (m / H) (m % H) i j := by
    intro m i j hm2 hi hj
    rw [hs0e [m, i, j]]
    simp only [List.getD_cons_zero, List.getD_cons_succ]
    rw [rawScore]
    apply Finset.sum_congr rfl
    intro c hc
    have hc2 : c < D := Finset.mem_range.mp hc
    have e2 : (transposeT k3 1 2).entry [m, c, j] = k3.entry [m, j, c] := by
      show k3.entry (swapIdx 1 2 [m, c, j]) = _
      rw [swapIdx12_3]
    rw [hq3e m i c hm2 hi hc2, e2, hk3e m j c hm2 hj hc2]
  have hmasked : ∃ s1, (match mask with
      | none => some s0
      | some mk => maskedFillT s0 mk (-1e9)) = some s1 ∧
      s1.shape = [B * H, sq, sk] ∧
      ∀ m i j, m < B * H → i < sq → j < sk →
        s1.entry [m, i, j] = maskScore mask q k D (m / H) (m % H) i j := by
    rcases hm with rfl | ⟨mk, rfl, hmks⟩
    · refine ⟨s0, rfl, hs0s, ?_⟩
      intro m i j hm2 hi hj
      rw [hs0raw m i j hm2 hi hj]
      rfl
    · obtain ⟨s1, hs1, hs1s, hs1e⟩ := maskedFillT_some s0 mk (-1e9) (B * H) sq sk hs0s hmks
      refine ⟨s1, hs1, hs1s.trans hs0s, ?_⟩
      intro m i j hm2 hi hj
      rw [hs1e [m, i, j], hmks, bIdx_pe sq sk m i j hi hj, hs0raw m i j hm2 hi hj]
      rfl
  obtain ⟨s1, hs1, hs1s, hs1e⟩ := hmasked
  have hsm : ∀ m i j, m < B * H → i < sq → j < sk →
      (softmaxT 2 s1).entry [m, i, j] = smWeight mask q k D sk (m / H) (m % H) i j := by
    intro m i j hm2 hi hj
    have hgd : s1.shape.getD 2 0 = sk := by rw [hs1s]; rfl
    show Real.exp (s1.entry [m, i, j]) /
        ∑ j2 ∈ Finset.range (s1.shape.getD 2 0), Real.exp (s1.entry ([m, i, j].set 2 j2)) = _
    rw [hgd, smWeight, hs1e m i j hm2 hi hj]
    congr 1
    apply Finset.sum_congr rfl
    intro j2 hj2
    have hset : ([m, i, j].set 2 j2) = [m, i, j2] := rfl
    rw [hset, hs1e m i j2 hm2 hi (Finset.mem_range.mp hj2)]
  have hsms : (softmaxT 2 s1).shape = [B * H, sq, sk] := by
    rw [softmaxT_shape, hs1s]
  obtain ⟨s2, hs2, hs2s, hs2e⟩ := bmmT_some (softmaxT 2 s1) v3 (B * H) sq sk D hsms hv3s
  have hs2val : ∀ m i e, m < B * H → i < sq → e < D →
      s2.entry [m, i, e] = ∑ j ∈ Finset.range sk,
        smWeight mask q k D sk (m / H) (m % H) i j * v.entry [m / H, j, m % H, e] := by
    intro m i e hm2 hi he
    rw [hs2e [m, i, e]]
    simp only [List.getD_cons_zero, List.getD_cons_succ]
    apply Finset.sum_congr rfl
    intro j hj
    have hj2 := Finset.mem_range.mp hj
    rw [hsm m i j hm2 hi hj2, hv3e m j e hm2 hj2 he]
  obtain ⟨s3, hs3, hs3s, hs3e⟩ := splitHeads s2 B H sq D hB hH hD hs2s
  obtain ⟨out, hout, houts, houte⟩ := flattenHeads s3 B H sq D hB hH hD hs3s
  refine ⟨out, ?_, houts, ?_⟩
  · rw [sdpa_eq_chain k q v mask B sk H D hk, hk3, Option.some_bind, hq3,
      Option.some_bind, hv3, Option.some_bind, hs0, Option.some_bind, hs1,
      Option.some_bind, hs2, Option.some_bind, hs3, Option.some_bind, hout]
  · intro bb hh i e hbb hhh hi he
    have hc : hh * D + e < H * D := idx_lt_mul hhh he
    rw [houte bb i (hh * D + e) hi hc, mul_add_div_eq hh e D he, mul_add_mod_eq hh e D he,
      hs3e bb hh i e hhh hi he]
    have hmlt : bb * H + hh < B * H := idx_lt_mul hbb hhh
    rw [hs2val (bb * H + hh) i e hmlt hi he, sdpaSpecEntry,
      mul_add_div_eq bb hh H hhh, mul_add_mod_eq bb hh H hhh]

theorem splitLast_view (t : Tensor) (b s h d : ℕ) (hb : 0 < b) (hh : 0 < h) (hd : 0 < d)
    (ht : t.shape = [b, s, h * d]) :
    ∃ u, viewT t [(b : ℤ), -1, (h : ℤ), (d : ℤ)] = some u ∧ u.shape = [b, s, h, d] ∧
      ∀ bb t2 hh2 l, t2 < s → hh2 < h → l < d →
        u.entry [bb, t2, hh2, l] = t.entry [bb, t2, hh2 * d + l] := by
  have hnum : t.numel = b * (h * d) * s := by
    rw [Tensor.numel, ht]
    simp [prodL]
    ring
  have hpos : 0 < b * (h * d) := by positivity
  have hres : resolveDims t.numel [(b : ℤ), -1, (h : ℤ), (d : ℤ)] = some [b, s, h, d] := by
    rw [resolveDims_snd4]
    rw [if_pos ⟨hpos, ⟨s, by rw [hnum]⟩⟩, hnum, Nat.mul_div_cancel_left s hpos]
  refine ⟨⟨[b, s, h, d], fun ix => t.entry (fromIdx t.shape (toIdx [b, s, h, d] ix))⟩,
    ?_, rfl, ?_⟩
  · rw [viewT, hres]
  · intro bb t2 hh2 l ht2 hhh hl
    show t.entry (fromIdx t.shape (toIdx [b, s, h, d] [bb, t2, hh2, l])) = _
    rw [ht, fromIdx_split_last b s h d bb t2 hh2 l ht2 hhh hl]

/-- Projection of one input row into head hh, written from the specification:
a bias-free linear map of width heads * d_model whose output is reshaped into
heads blocks of width d_model. -/
def projHead (w : ℕ → ℕ → ℝ) (dm : ℕ) (t : Tensor) (bb s hh l : ℕ) : ℝ :=
  ∑ r ∈ Finset.range dm, w (hh * dm + l) r * t.entry [bb, s, r]

/-- The projected tensor of shape [b, s, h, dm] described by the
specification of MultiHeadAttention. -/
def projT (w : ℕ → ℕ → ℝ) (dm : ℕ) (t : Tensor) (b s h : ℕ) : Tensor :=
  ⟨[b, s, h, dm], fun ix =>
    match ix with
    | [bb, s2, hh, l] => projHead w dm t bb s2 hh l
    | _ => 0⟩

theorem sdpaSpecEntry_congr (mask : Option Tensor) (qa ka va qb kb vb : Tensor)
    (D sk sq : ℕ) (bb hh i e : ℕ) (hi : i < sq)
    (hqe : ∀ i2 l, i2 < sq → l < D → qa.entry [bb, i2, hh, l] = qb.entry [bb, i2, hh, l])
    (hke : ∀ j l, j < sk → l < D → ka.entry [bb, j, hh, l] = kb.entry [bb, j, hh, l])
    (hve : ∀ j, j < sk → va.entry [bb, j, hh, e] = vb.entry [bb, j, hh, e]) :
    sdpaSpecEntry mask qa ka va D sk bb hh i e =
      sdpaSpecEntry mask qb kb vb D sk bb hh i e := by
  have hraw : ∀ j, j < sk → rawScore qa ka D bb hh i j = rawScore qb kb D bb hh i j := by
    intro j hj
    apply Finset.sum_congr rfl
    intro l hl
    rw [hqe i l hi (Finset.mem_range.mp hl), hke j l hj (Finset.mem_range.mp hl)]
  have hms : ∀ j, j < sk →
      maskScore mask qa ka D bb hh i j = maskScore mask qb kb D bb hh i j := by
    intro j hj
    cases mask with
    | none => exact hraw j hj
    | some mk =>
      show (if mk.entry [0, i, j] = 0 then _ else _) = _
      rw [hraw j hj]
      rfl
  have hsw : ∀ j, j < sk →
      smWeight mask qa ka D sk bb hh i j = smWeight mask qb kb D sk bb hh i j := by
    intro j hj
    rw [smWeight, smWeight, hms j hj]
    congr 1
    apply Finset.sum_congr rfl
    intro j2 hj2
    rw [hms j2 (Finset.mem_range.mp hj2)]
  rw [sdpaSpecEntry, sdpaSpecEntry]
  apply Finset.sum_congr rfl
  intro j hj
  rw [hsw j (Finset.mem_range.mp hj), hve j (Finset.mem_range.mp hj)]

theorem mkMHA_h (heads dm : ℕ) (w : MHAW) (drop : ℝ) (mask : Option Tensor) :
    (mkMHA heads dm w drop mask).h = heads := rfl

theorem mkMHA_dm (heads dm : ℕ) (w : MHAW) (drop : ℝ) (mask : Option Tensor) :
    (mkMHA heads dm w drop mask).d_model = dm := rfl

theorem mkMHA_mask (heads dm : ℕ) (w : MHAW) (drop : ℝ) (mask : Option Tensor) :
    (mkMHA heads dm w drop mask).mask = mask := rfl

/-- Full characterisation of MultiHeadAttention.forward: for well-shaped
inputs it succeeds, preserves shape [b, seq_q, d_model], and every entry is
the biased unifying map applied to the attention core run on the three
bias-free head projections, with the mask fixed at construction.  No dropout
appears. -/
theorem mha_char (heads dm : ℕ) (w : MHAW) (drop : ℝ) (mask : Option Tensor)
    (q k v : Tensor) (b sq sk : ℕ) (hb : 0 < b) (hh : 0 < heads) (hd : 0 < dm)
    (hq : q.shape = [b, sq, dm]) (hk : k.shape = [b, sk, dm]) (hv : v.shape = [b, sk, dm])
    (hm : mask = none ∨ ∃ mk, mask = some mk ∧ mk.shape = [1, sq, sk]) :
    ∃ out, mhaForward (mkMHA heads dm w drop mask) q k v = some out ∧
      out.shape = [b, sq, dm] ∧
      ∀ bb i o, bb < b → i < sq → out.entry [bb, i, o] =
        (∑ c ∈ Finset.range (heads * dm), w.wu o c *
          sdpaSpecEntry mask (projT w.wq dm q b sq heads) (projT w.wk dm k b sk heads)
            (projT w.wv dm v b sk heads) dm sk bb (c / dm) i (c % dm)) + w.bu o := by
  have hgd : q.shape.getD 0 0 = b := by rw [hq]; rfl
  obtain ⟨k1, hk1, hk1s, hk1e⟩ := linearNB_some (mkMHA heads dm w drop mask).k_linear k
    (by rw [hk]; simp) (by rw [hk]; rfl)
  have hk1s2 : k1.shape = [b, sk, heads * dm] := by rw [hk1s, hk, setLast_three]; rfl
  obtain ⟨k2, hk2, hk2s, hk2e⟩ := splitLast_view k1 b sk heads dm hb hh hd hk1s2
  obtain ⟨q1, hq1, hq1s, hq1e⟩ := linearNB_some (mkMHA heads dm w drop mask).q_linear q
    (by rw [hq]; simp) (by rw [hq]; rfl)
  have hq1s2 : q1.shape = [b, sq, heads * dm] := by rw [hq1s, hq, setLast_three]; rfl
  obtain ⟨q2, hq2, hq2s, hq2e⟩ := splitLast_view q1 b sq heads dm hb hh hd hq1s2
  obtain ⟨v1, hv1, hv1s, hv1e⟩ := linearNB_some (mkMHA heads dm w drop mask).v_linear v
    (by rw [hv]; simp) (by rw [hv]; rfl)
  have hv1s2 : v1.shape = [b, sk, heads * dm] := by rw [hv1s, hv, setLast_three]; rfl
  obtain ⟨v2, hv2, hv2s, hv2e⟩ := splitLast_view v1 b sk heads dm hb hh hd hv1s2
  have hk2p : ∀ bb j hh2 l, j < sk → hh2 < heads → l < dm →
      k2.entry [bb, j, hh2, l] = (projT w.wk dm k b sk heads).entry [bb, j, hh2, l] := by
    intro bb j hh2 l hj hhh hl
    rw [hk2e bb j hh2 l hj hhh hl, hk1e [bb, j, hh2 * dm + l]]
    rfl
  have hq2p : ∀ bb i2 hh2 l, i2 < sq → hh2 < heads → l < dm →
      q2.entry [bb, i2, hh2, l] = (projT w.wq dm q b sq heads).entry [bb, i2, hh2, l] := by
    intro bb i2 hh2 l hi2 hhh hl
    rw [hq2e bb i2 hh2 l hi2 hhh hl, hq1e [bb, i2, hh2 * dm + l]]
    rfl
  have hv2p : ∀ bb j hh2 l, j < sk → hh2 < heads → l < dm →
      v2.entry [bb, j, hh2, l] = (projT w.wv dm v b sk heads).entry [bb, j, hh2, l] := by
    intro bb j hh2 l hj hhh hl
    rw [hv2e bb j hh2 l hj hhh hl, hv1e [bb, j, hh2 * dm + l]]
    rfl
  obtain ⟨out0, hout0, hout0s, hout0e⟩ :=
    sdpa_char b sq sk heads dm k2 q2 v2 mask hb hh hd hk2s hq2s hv2s hm
  obtain ⟨out, hout, houts, houte⟩ := linearT_some (mkMHA heads dm w drop mask).unifyheads
    out0 (by rw [hout0s]; simp) (by rw [hout0s]; rfl)
  have houts2 : out.shape = [b, sq, dm] := by rw [houts, hout0s, setLast_three]; rfl
  refine ⟨out, ?_, houts2, ?_⟩
  · simp only [mhaForward, hgd, mkMHA_h, mkMHA_dm, mkMHA_mask]
    rw [hk1, Option.some_bind, hk2, Option.some_bind, hq1, Option.some_bind, hq2,
      Option.some_bind, hv1, Option.some_bind, hv2, Option.some_bind, hout0,
      Option.some_bind, hout]
  · intro bb i o hbb hi
    rw [houte [bb, i, o]]
    congr 1
    apply Finset.sum_congr rfl
    intro c hc
    have hc2 : c < heads * dm := Finset.mem_range.mp hc
    have hdiv : c / dm < heads := by
      rw [Nat.div_lt_iff_lt_mul hd]
      exact hc2
    have hmod : c % dm < dm := Nat.mod_lt c hd
    have hsp := hout0e bb (c / dm) i (c % dm) hbb hdiv hi hmod
    rw [Nat.div_add_mod' c dm] at hsp
    rw [setLast_three bb i o c, hsp]
    congr 1
    exact sdpaSpecEntry_congr mask q2 k2 v2 (projT w.wq dm q b sq heads)
      (projT w.wk dm k b sk heads) (projT w.wv dm v b sk heads) dm sk sq bb (c / dm) i
      (c % dm) hi
      (fun i2 l hi2 hl => hq2p bb i2 (c / dm) l hi2 hdiv hl)
      (fun j l hj hl => hk2p bb j (c / dm) l hj hdiv hl)
      (fun j hj => hv2p bb j (c / dm) (c % dm) hj hdiv hmod)

/-! Positional encoding lemmas. -/

theorem resolveSliceIdx_zero (W : ℕ) : resolveSliceIdx 0 W = 0 := by
  simp [resolveSliceIdx]

theorem resolveSliceIdx_le (L W : ℕ) (hL : L ≤ W) : resolveSliceIdx (L : ℤ) W = L := by
  rw [resolveSliceIdx, if_neg (by omega), Int.toNat_natCast]
  exact min_eq_left hL

theorem resolveSliceIdx_ge (L W : ℕ) (hL : W ≤ L) : resolveSliceIdx (L : ℤ) W = W := by
  rw [resolveSliceIdx, if_neg (by omega), Int.toNat_natCast]
  exact min_eq_right hL

theorem sliceD_peTable_shape (W D L : ℕ) (hL : L ≤ W) :
    (sliceD (peTable W D) 1 0 (some (L : ℤ))).shape = [1, L, D] := by
  show ([1, W, D].set 1 (resolveSliceIdx (L : ℤ) W - resolveSliceIdx 0 W)) = _
  rw [resolveSliceIdx_zero, resolveSliceIdx_le L W hL, Nat.sub_zero]
  rfl

theorem sliceD_peTable_entry (W D L : ℕ) (p i : ℕ) :
    (sliceD (peTable W D) 1 0 (some (L : ℤ))).entry [0, p, i] =
      (peTable W D).entry [0, p, i] := by
  show (peTable W D).entry ([0, p, i].set 1 ([0, p, i].getD 1 0 + resolveSliceIdx 0 W)) = _
  rw [resolveSliceIdx_zero]
  rfl

/-- PositionalEncoding.forward succeeds on inputs whose sequence length is at
most the table window, adding the table rows broadcast over the batch. -/
theorem peForward_char (W D B L : ℕ) (x : Tensor) (hx : x.shape = [B, L, D])
    (hL : L ≤ W) :
    ∃ y, peForward (peTable W D) x = some y ∧ y.shape = [B, L, D] ∧
      ∀ bb p i, bb < B → p < L → i < D →
        y.entry [bb, p, i] = x.entry [bb, p, i] + (peTable W D).entry [0, p, i] := by
  have hgd : x.shape.getD 1 0 = L := by rw [hx]; rfl
  have hss := sliceD_peTable_shape W D L hL
  obtain ⟨y, hy, hys, hye⟩ := addB_bcast x (sliceD (peTable W D) 1 0 (some (L : ℤ))) B L D hx hss
  refine ⟨y, ?_, hys, ?_⟩
  · rw [peForward, hgd]
    exact hy
  · intro bb p i hbb hp hi
    rw [hye [bb, p, i], hx, hss, bIdx_id3 B L D bb p i hbb hp hi,
      bIdx_pe L D bb p i hp hi, sliceD_peTable_entry]

theorem combineDim_ne (L W : ℕ) (h1 : L ≠ 1) (h2 : W ≠ 1) (h3 : L ≠ W) :
    combineDim L W = none := by
  rw [combineDim, if_neg h1, if_neg h2, if_neg h3]

/-- PositionalEncoding.forward fails by a broadcast shape mismatch in the
addition when the window holds at least two rows and the input is longer than
the window (the slice itself clamps silently). -/
theorem peForward_fail (W D B L : ℕ) (x : Tensor) (hx : x.shape = [B, L, D])
    (hW : 2 ≤ W) (hL : W < L) :
    peForward (peTable W D) x = none := by
  have hgd : x.shape.getD 1 0 = L := by rw [hx]; rfl
  have hss : (sliceD (peTable W D) 1 0 (some (L : ℤ))).shape = [1, W, D] := by
    show ([1, W, D].set 1 (resolveSliceIdx (L : ℤ) W - resolveSliceIdx 0 W)) = _
    rw [resolveSliceIdx_zero, resolveSliceIdx_ge L W (le_of_lt hL), Nat.sub_zero]
    rfl
  have hcomb : combineDim L W = none := combineDim_ne L W (by omega) (by omega) (by omega)
  have hbs : bShape [B, L, D] [1, W, D] = none := by
    rw [bShape]
    have h1 : ([B, L, D] : List ℕ).reverse = [D, L, B] := rfl
    have h2 : ([1, W, D] : List ℕ).reverse = [D, W, 1] := rfl
    rw [h1, h2]
    show ((bShapeR [D, L, B] [D, W, 1]).map List.reverse) = none
    rw [show bShapeR [D, L, B] [D, W, 1] = none from by
      rw [bShapeR, combineDim_self]
      rw [show bShapeR [L, B] [W, 1] = none from by
        rw [bShapeR, hcomb]]]
    rfl
  rw [peForward, hgd, addB, hx, hss, hbs]

theorem bShape_bcast11 (bb L D : ℕ) : bShape [bb, L, D] [1, 1, D] = some [bb, L, D] := by
  rw [bShape]
  have h1 : ([bb, L, D] : List ℕ).reverse = [D, L, bb] := rfl
  have h2 : ([1, 1, D] : List ℕ).reverse = [D, 1, 1] := rfl
  rw [h1, h2]
  simp [bShapeR, combineDim_self, combineDim_one]

theorem addB_bcast11 (t u : Tensor) (bb L D : ℕ) (ht : t.shape = [bb, L, D])
    (hu : u.shape = [1, 1, D]) :
    ∃ r, addB t u = some r ∧ r.shape = [bb, L, D] := by
  rw [addB, ht, hu, bShape_bcast11]
  exact ⟨_, rfl, rfl⟩

/-- For a single-row positional table (window = 1) the clamped slice keeps one
row, which broadcasts silently over every position, so the addition succeeds
for any sequence length. -/
theorem peForward_one (D B L : ℕ) (x : Tensor) (hx : x.shape = [B, L, D])
    (hL : 0 < L) :
    ∃ y, peForward (peTable 1 D) x = some y ∧ y.shape = [B, L, D] := by
  have hgd : x.shape.getD 1 0 = L := by rw [hx]; rfl
  have hss : (sliceD (peTable 1 D) 1 0 (some (L : ℤ))).shape = [1, 1, D] := by
    show ([1, 1, D].set 1 (resolveSliceIdx (L : ℤ) 1 - resolveSliceIdx 0 1)) = _
    rw [resolveSliceIdx_zero, resolveSliceIdx_ge L 1 hL, Nat.sub_zero]
    rfl
  obtain ⟨r, hr, hrs⟩ := addB_bcast11 x _ B L D hx hss
  refine ⟨r, ?_, hrs⟩
  rw [peForward, hgd]
  exact hr

/-- PositionalEncoding.forward succeeds (with the input shape preserved)
whenever the sequence length fits the table window, or the table holds a
single row, which broadcasts silently. -/
theorem peForward_some_shape (W D B L : ℕ) (x : Tensor) (hx : x.shape = [B, L, D])
    (hLpos : 0 < L) (hL : L ≤ W ∨ W = 1) :
    ∃ y, peForward (peTable W D) x = some y ∧ y.shape = [B, L, D] := by
  rcases hL with hL | hW
  · obtain ⟨y, hy, hys, _⟩ := peForward_char W D B L x hx hL
    exact ⟨y, hy, hys⟩
  · subst hW
    exact peForward_one D B L x hx hLpos

/-! Feed-forward, encoder layer and decoder layer. -/

theorem ff_char (dm : ℕ) (fw : FFW) (p : ℝ) (x : Tensor) (a s : ℕ)
    (hx : x.shape = [a, s, dm]) :
    ∃ y, ffForward (mkFF dm fw p) x = some y ∧ y.shape = [a, s, dm] := by
  obtain ⟨u1, hu1, hu1s, _⟩ := linearT_some (mkFF dm fw p).lin1 x (by rw [hx]; simp)
    (by rw [hx]; rfl)
  have hu1s2 : u1.shape = [a, s, 10 * dm] := by rw [hu1s, hx, setLast_three]; rfl
  have hd2 : (dropoutT (mkFF dm fw p).keep (mkFF dm fw p).p (reluT u1)).shape =
      [a, s, 10 * dm] := by
    rw [dropoutT_shape, reluT_shape, hu1s2]
  obtain ⟨u2, hu2, hu2s, _⟩ := linearT_some (mkFF dm fw p).lin2
    (dropoutT (mkFF dm fw p).keep (mkFF dm fw p).p (reluT u1)) (by rw [hd2]; simp)
    (by rw [hd2]; rfl)
  refine ⟨u2, ?_, ?_⟩
  · rw [ffForward, hu1, Option.some_bind, hu2]
  · rw [hu2s, hd2, setLast_three]
    rfl

theorem encLayer_char (heads dm : ℕ) (drop : ℝ) (w : EncLayerW) (x : Tensor) (b s : ℕ)
    (hb : 0 < b) (hh : 0 < heads) (hd : 0 < dm) (hx : x.shape = [b, s, dm]) :
    ∃ y, encLayerForward (mkEncLayer heads dm drop w) x = some y ∧
      y.shape = [b, s, dm] := by
  obtain ⟨x2, hx2, hx2s⟩ := layerNormT_some dm w.n1 x (by rw [hx]; simp) (by rw [hx]; rfl)
  have hx2s2 : x2.shape = [b, s, dm] := hx2s.trans hx
  obtain ⟨a, ha, has, _⟩ := mha_char heads dm w.attn drop none x2 x2 x2 b s s hb hh hd
    hx2s2 hx2s2 hx2s2 (Or.inl rfl)
  obtain ⟨xr, hxr, hxrs, _⟩ := addB_same x (dropoutT w.k1 drop a)
    (by rw [dropoutT_shape, has, hx])
  have hxrs2 : xr.shape = [b, s, dm] := hxrs.trans hx
  obtain ⟨x2b, hx2b, hx2bs⟩ := layerNormT_some dm w.n2 xr (by rw [hxrs2]; simp)
    (by rw [hxrs2]; rfl)
  have hx2bs2 : x2b.shape = [b, s, dm] := hx2bs.trans hxrs2
  obtain ⟨fo, hfo, hfos⟩ := ff_char dm w.ff 0.1 x2b b s hx2bs2
  obtain ⟨y, hy, hys, _⟩ := addB_same xr (dropoutT w.k2 drop fo)
    (by rw [dropoutT_shape, hfos, hxrs2])
  refine ⟨y, ?_, hys.trans hxrs2⟩
  simp only [encLayerForward, mkEncLayer]
  rw [hx2, Option.some_bind, ha, Option.some_bind, hxr, Option.some_bind, hx2b,
    Option.some_bind, hfo, Option.some_bind, hy]

theorem decLayer_char (heads dm : ℕ) (fm : Tensor) (drop : ℝ) (w : DecLayerW)
    (x enc_out : Tensor) (b s se : ℕ) (hb : 0 < b) (hh : 0 < heads) (hd : 0 < dm)
    (hx : x.shape = [b, s, dm]) (he : enc_out.shape = [b, se, dm])
    (hfm : fm.shape = [1, s, s]) :
    ∃ y, decLayerForward (mkDecLayer heads dm fm drop w) x enc_out = some y ∧
      y.shape = [b, s, dm] := by
  obtain ⟨x2, hx2, hx2s⟩ := layerNormT_some dm w.n1 x (by rw [hx]; simp) (by rw [hx]; rfl)
  have hx2s2 : x2.shape = [b, s, dm] := hx2s.trans hx
  obtain ⟨a1, ha1, ha1s, _⟩ := mha_char heads dm w.attn1 drop (some fm) x2 x2 x2 b s s
    hb hh hd hx2s2 hx2s2 hx2s2 (Or.inr ⟨fm, rfl, hfm⟩)
  obtain ⟨xr, hxr, hxrs, _⟩ := addB_same x (dropoutT w.k1 drop a1)
    (by rw [dropoutT_shape, ha1s, hx])
  have hxrs2 : xr.shape = [b, s, dm] := hxrs.trans hx
  obtain ⟨x2b, hx2b, hx2bs⟩ := layerNormT_some dm w.n2 xr (by rw [hxrs2]; simp)
    (by rw [hxrs2]; rfl)
  have hx2bs2 : x2b.shape = [b, s, dm] := hx2bs.trans hxrs2
  obtain ⟨a2, ha2, ha2s, _⟩ := mha_char heads dm w.attn2 drop none x2b enc_out enc_out
    b s se hb hh hd hx2bs2 he he (Or.inl rfl)
  obtain ⟨xr2, hxr2, hxr2s, _⟩ := addB_same xr (dropoutT w.k2 drop a2)
    (by rw [dropoutT_shape, ha2s, hxrs2])
  have hxr2s2 : xr2.shape = [b, s, dm] := hxr2s.trans hxrs2
  obtain ⟨x2c, hx2c, hx2cs⟩ := layerNormT_some dm w.n3 xr2 (by rw [hxr2s2]; simp)
    (by rw [hxr2s2]; rfl)
  have hx2cs2 : x2c.shape = [b, s, dm] := hx2cs.trans hxr2s2
  obtain ⟨fo, hfo, hfos⟩ := ff_char dm w.ff 0.1 x2c b s hx2cs2
  obtain ⟨y, hy, hys, _⟩ := addB_same xr2 (dropoutT w.k3 drop fo)
    (by rw [dropoutT_shape, hfos, hxr2s2])
  refine ⟨y, ?_, hys.trans hxr2s2⟩
  simp only [decLayerForward, mkDecLayer]
  rw [hx2, Option.some_bind, ha1, Option.some_bind, hxr, Option.some_bind, hx2b,
    Option.some_bind, ha2, Option.some_bind, hxr2, Option.some_bind, hx2c,
    Option.some_bind, hfo, Option.some_bind, hy]

/-! Stacks. -/

theorem stackEnc_char (heads dm : ℕ) (drop : ℝ) (ws : List EncLayerW) (x : Tensor)
    (b s : ℕ) (hb : 0 < b) (hh : 0 < heads) (hd : 0 < dm) (hx : x.shape = [b, s, dm]) :
    ∃ y, stackEnc (ws.map (mkEncLayer heads dm drop)) x = some y ∧
      y.shape = [b, s, dm] := by
  induction ws generalizing x with
  | nil => exact ⟨x, rfl, hx⟩
  | cons wl wt ih =>
    obtain ⟨y1, hy1, hy1s⟩ := encLayer_char heads dm drop wl x b s hb hh hd hx
    obtain ⟨y, hy, hys⟩ := ih y1 hy1s
    refine ⟨y, ?_, hys⟩
    rw [List.map_cons]
    show (encLayerForward (mkEncLayer heads dm drop wl) x).bind _ = some y
    rw [hy1, Option.some_bind, hy]

theorem stackDec_char (heads dm : ℕ) (fm : Tensor) (drop : ℝ) (ws : List DecLayerW)
    (x enc_out : Tensor) (b s se : ℕ) (hb : 0 < b) (hh : 0 < heads) (hd : 0 < dm)
    (hx : x.shape = [b, s, dm]) (he : enc_out.shape = [b, se, dm])
    (hfm : fm.shape = [1, s, s]) :
    ∃ y, stackDec enc_out (ws.map (mkDecLayer heads dm fm drop)) x = some y ∧
      y.shape = [b, s, dm] := by
  induction ws generalizing x with
  | nil => exact ⟨x, rfl, hx⟩
  | cons wl wt ih =>
    obtain ⟨y1, hy1, hy1s⟩ := decLayer_char heads dm fm drop wl x enc_out b s se
      hb hh hd hx he hfm
    obtain ⟨y, hy, hys⟩ := ih y1 hy1s
    refine ⟨y, ?_, hys⟩
    rw [List.map_cons]
    show (decLayerForward (mkDecLayer heads dm fm drop wl) x enc_out).bind _ = some y
    rw [hy1, Option.some_bind, hy]

theorem encoder_char (pew heads dm : ℕ) (drop : ℝ) (ws : List EncLayerW) (nw : NormW)
    (x : Tensor) (b L : ℕ) (hb : 0 < b) (hh : 0 < heads) (hd : 0 < dm)
    (hx : x.shape = [b, L, dm]) (hLpos : 0 < L) (hL : L ≤ pew ∨ pew = 1) :
    ∃ y, encoderForward (mkEncoder pew heads dm drop ws nw) x = some y ∧
      y.shape = [b, L, dm] := by
  obtain ⟨x0, hx0, hx0s⟩ := peForward_some_shape pew dm b L x hx hLpos hL
  obtain ⟨xs, hxs, hxss⟩ := stackEnc_char heads dm drop ws x0 b L hb hh hd hx0s
  obtain ⟨y, hy, hys⟩ := layerNormT_some dm nw xs (by rw [hxss]; simp) (by rw [hxss]; rfl)
  refine ⟨y, ?_, hys.trans hxss⟩
  simp only [encoderForward, mkEncoder]
  rw [hx0, Option.some_bind, hxs, Option.some_bind, hy]

theorem decoder_char (pew heads dm : ℕ) (fm : Tensor) (drop : ℝ) (ws : List DecLayerW)
    (nw : NormW) (x enc_out : Tensor) (b L se : ℕ) (hb : 0 < b) (hh : 0 < heads)
    (hd : 0 < dm) (hx : x.shape = [b, L, dm]) (he : enc_out.shape = [b, se, dm])
    (hfm : fm.shape = [1, L, L]) (hL : L ≤ pew) :
    ∃ y, decoderForward (mkDecoder pew heads dm fm drop ws nw) x enc_out = some y ∧
      y.shape = [b, L, dm] := by
  obtain ⟨x0, hx0, hx0s, _⟩ := peForward_char pew dm b L x hx hL
  obtain ⟨xs, hxs, hxss⟩ := stackDec_char heads dm fm drop ws x0 enc_out b L se
    hb hh hd hx0s he hfm
  obtain ⟨y, hy, hys⟩ := layerNormT_some dm nw xs (by rw [hxss]; simp) (by rw [hxss]; rfl)
  refine ⟨y, ?_, hys.trans hxss⟩
  simp only [decoderForward, mkDecoder]
  rw [hx0, Option.some_bind, hxs, Option.some_bind, hy]

/-! Top-level reshaping and mapping. -/

theorem view_flatten_pair (t : Tensor) (b c d : ℕ) (hb : 0 < b) (ht : t.shape = [b, c, d]) :
    ∃ u, viewT t [(b : ℤ), -1] = some u ∧ u.shape = [b, c * d] := by
  have hnum : t.numel = b * (c * d) := by
    rw [Tensor.numel, ht]
    simp [prodL]
  have hres : resolveDims t.numel [(b : ℤ), -1] = some [b, c * d] := by
    rw [resolveDims_pair, if_pos ⟨hb, ⟨c * d, by rw [hnum]⟩⟩, hnum,
      Nat.mul_div_cancel_left _ hb]
  exact ⟨_, by rw [viewT, hres], rfl⟩

theorem view_unflatten3 (t : Tensor) (b pw dd : ℕ) (hp : 0 < pw * dd)
    (ht : t.shape = [b, pw * dd]) :
    ∃ u, viewT t [-1, (pw : ℤ), (dd : ℤ)] = some u ∧ u.shape = [b, pw, dd] := by
  have hnum : t.numel = pw * dd * b := by
    rw [Tensor.numel, ht]
    simp [prodL]
    ring
  have hres : resolveDims t.numel [-1, (pw : ℤ), (dd : ℤ)] = some [b, pw, dd] := by
    rw [resolveDims_head3, if_pos ⟨hp, ⟨b, by rw [hnum]⟩⟩, hnum,
      Nat.mul_div_cancel_left _ hp]
  exact ⟨_, by rw [viewT, hres], rfl⟩

theorem view_final2 (t : Tensor) (b pw : ℕ) (ht : t.shape = [b, pw, 1]) :
    ∃ u, viewT t [(b : ℤ), (pw : ℤ)] = some u ∧ u.shape = [b, pw] := by
  have hnum : t.numel = b * pw := by
    rw [Tensor.numel, ht]
    simp [prodL]
  have hres : resolveDims t.numel [(b : ℤ), (pw : ℤ)] = some [b, pw] := by
    rw [resolveDims_all2, if_pos (by rw [hnum])]
  exact ⟨_, by rw [viewT, hres], rfl⟩

theorem mapForward_char (m : Ml4fP) (d : Tensor) (b pw : ℕ) (hd : d.shape = [b, pw])
    (hin : m.mapLin.inF = pw) (hout : m.mapLin.outF = pw) :
    ∃ t, mapForward m d = some t ∧ t.shape = [b, pw] := by
  obtain ⟨a, ha, has, _⟩ := linearT_some m.mapLin d (by rw [hd]; simp)
    (by rw [hd, hin]; rfl)
  have has2 : a.shape = [b, pw] := by rw [has, hd, setLast_two, hout]
  by_cases hexp : m.experiment = "return"
  · refine ⟨dropoutT m.mapKeep m.mapP (reluT a), ?_,
      by rw [dropoutT_shape, reluT_shape, has2]⟩
    rw [mapForward, ha, Option.some_bind, if_pos hexp]
  · refine ⟨sigmoidT (dropoutT m.mapKeep m.mapP (reluT a)), ?_,
      by rw [sigmoidT_shape, dropoutT_shape, reluT_shape, has2]⟩
    rw [mapForward, ha, Option.some_bind, if_neg hexp]

/-! Reduction lemmas for the constructor of the full model. -/

theorem mkMl4f_enc (e : String) (de dd heads : ℕ) (fm : Tensor) (drop : ℝ)
    (cw pw pew : ℕ) (w : Ml4fW) :
    (mkMl4f e de dd heads fm drop cw pw pew w).dynamicencode =
      mkEncoder pew heads de drop w.encW w.encNorm := rfl

theorem mkMl4f_learnLin (e : String) (de dd heads : ℕ) (fm : Tensor) (drop : ℝ)
    (cw pw pew : ℕ) (w : Ml4fW) :
    (mkMl4f e de dd heads fm drop cw pw pew w).learnLin =
      ⟨pw * dd, cw * de, w.learnW.W, w.learnW.b⟩ := rfl

theorem mkMl4f_learnKeep (e : String) (de dd heads : ℕ) (fm : Tensor) (drop : ℝ)
    (cw pw pew : ℕ) (w : Ml4fW) :
    (mkMl4f e de dd heads fm drop cw pw pew w).learnKeep = w.learnKeep := rfl

theorem mkMl4f_learnP (e : String) (de dd heads : ℕ) (fm : Tensor) (drop : ℝ)
    (cw pw pew : ℕ) (w : Ml4fW) :
    (mkMl4f e de dd heads fm drop cw pw pew w).learnP = drop := rfl

theorem mkMl4f_pw (e : String) (de dd heads : ℕ) (fm : Tensor) (drop : ℝ)
    (cw pw pew : ℕ) (w : Ml4fW) :
    (mkMl4f e de dd heads fm drop cw pw pew w).pred_window = pw := rfl

theorem mkMl4f_dd (e : String) (de dd heads : ℕ) (fm : Tensor) (drop : ℝ)
    (cw pw pew : ℕ) (w : Ml4fW) :
    (mkMl4f e de dd heads fm drop cw pw pew w).d_model_d = dd := rfl

theorem mkMl4f_dec (e : String) (de dd heads : ℕ) (fm : Tensor) (drop : ℝ)
    (cw pw pew : ℕ) (w : Ml4fW) :
    (mkMl4f e de dd heads fm drop cw pw pew w).decoder =
      mkDecoder pew heads dd fm drop w.decW w.decNorm := rfl

theorem mkMl4f_exp (e : String) (de dd heads : ℕ) (fm : Tensor) (drop : ℝ)
    (cw pw pew : ℕ) (w : Ml4fW) :
    (mkMl4f e de dd heads fm drop cw pw pew w).experiment = e := rfl

/-- Full shape characterisation of the forward pass of the model with
d_model_d = 1: it succeeds, the flattened decoder output has shape
[batch, pred_window], and the final output keeps that shape. -/
theorem ml4f_char (experiment : String) (de heads cw pw pew b : ℕ) (fm : Tensor)
    (drop : ℝ) (w : Ml4fW) (x y : Tensor)
    (hb : 0 < b) (hde : 0 < de) (hh : 0 < heads) (hcw : 0 < cw) (hpw : 0 < pw)
    (hcwW : cw ≤ pew) (hpwW : pw ≤ pew) (hfm : fm.shape = [1, pw, pw])
    (hx : x.shape = [b, cw, de]) (hy : y.shape = [b, pw, 1]) :
    ∃ d t, d.shape = [b, pw] ∧
      mapForward (mkMl4f experiment de 1 heads fm drop cw pw pew w) d = some t ∧
      ml4fForward (mkMl4f experiment de 1 heads fm drop cw pw pew w) x y = some t ∧
      t.shape = [b, pw] := by
  have hgd : x.shape.getD 0 0 = b := by rw [hx]; rfl
  obtain ⟨enc, henc, hencs⟩ := encoder_char pew heads de drop w.encW w.encNorm x b cw
    hb hh hde hx hcw (Or.inl hcwW)
  obtain ⟨e1, he1, he1s⟩ := view_flatten_pair enc b cw de hb hencs
  obtain ⟨e2, he2, he2s, _⟩ :=
    linearT_some ⟨pw * 1, cw * de, w.learnW.W, w.learnW.b⟩ e1 (by rw [he1s]; simp)
      (by rw [he1s]; rfl)
  have he2s2 : e2.shape = [b, pw * 1] := by rw [he2s, he1s, setLast_two]
  have hdr : (dropoutT w.learnKeep drop (reluT e2)).shape = [b, pw * 1] := by
    rw [dropoutT_shape, reluT_shape, he2s2]
  obtain ⟨em, hem, hems⟩ := view_unflatten3 (dropoutT w.learnKeep drop (reluT e2))
    b pw 1 (by simpa using hpw) hdr
  obtain ⟨dec, hdec, hdecs⟩ := decoder_char pew heads 1 fm drop w.decW w.decNorm y em
    b pw pw hb hh one_pos hy hems hfm hpwW
  obtain ⟨dflat, hdflat, hdflats⟩ := view_final2 dec b pw hdecs
  obtain ⟨t, ht, hts⟩ := mapForward_char
    (mkMl4f experiment de 1 heads fm drop cw pw pew w) dflat b pw hdflats rfl rfl
  refine ⟨dflat, t, hdflats, ht, ?_, hts⟩
  simp only [ml4fForward, hgd, mkMl4f_enc, mkMl4f_learnLin, mkMl4f_learnKeep,
    mkMl4f_learnP, mkMl4f_pw, mkMl4f_dd, mkMl4f_dec]
  rw [henc, Option.some_bind, he1, Option.some_bind, he2, Option.some_bind, hem,
    Option.some_bind, hdec, Option.some_bind, hdflat, Option.some_bind, ht]

/-! The causal mask builder. -/

theorem resolveSliceIdx_negOne (n : ℕ) : resolveSliceIdx (-1) (n + 1) = n := by
  rw [resolveSliceIdx, if_pos (by omega)]
  omega

theorem resolveSliceIdx_one (n : ℕ) : resolveSliceIdx 1 (n + 1) = 1 := by
  rw [resolveSliceIdx, if_neg (by omega)]
  show min (1 : ℤ).toNat (n + 1) = 1
  omega

theorem create_mask_shape (x y : ℕ) : (create_mask x y).shape = [1, y, x] := by
  have e0 : (create_mask x y).shape = swapIdx 1 2
      (([1, x + 1, y + 1].set 1 (resolveSliceIdx (-1) (x + 1))).set 2
        (y + 1 - resolveSliceIdx 1 (y + 1))) := rfl
  rw [e0, resolveSliceIdx_negOne, resolveSliceIdx_one]
  rfl

theorem create_mask_entry (x y i j : ℕ) :
    (create_mask x y).entry [0, i, j] = if j ≤ i then 1 else 0 := by
  have e1 : (create_mask x y).entry [0, i, j] =
      (sliceD (triu3 (onesT [1, x + 1, y + 1]) 1) 1 0 (some (-1))).entry
        ([0, j, i].set 2 (i + resolveSliceIdx 1 (y + 1))) := rfl
  rw [e1, resolveSliceIdx_one]
  have e2 : ((sliceD (triu3 (onesT [1, x + 1, y + 1]) 1) 1 0 (some (-1))).entry
      ([0, j, i].set 2 (i + 1))) = if (j : ℤ) + 1 ≤ ((i + 1 : ℕ) : ℤ) then (1 : ℝ)
        else 0 := rfl
  rw [e2]
  by_cases h : j ≤ i
  · rw [if_pos (by push_cast; omega), if_pos h]
  · rw [if_neg (by push_cast; omega), if_neg h]

/-- C3: the causal mask create_mask(P, P) has shape [1, P, P] and, at every
row i, its nonzero (permitted) entries are exactly the key columns 0..i,
while the entries at columns i+1..P-1 are zero (forbidden). -/
theorem c3_causal_mask (P i j : ℕ) (hi : i < P) (hj : j < P) :
    (create_mask P P).shape = [1, P, P] ∧
      ((create_mask P P).entry [0, i, j] ≠ 0 ↔ j ≤ i) := by
  refine ⟨create_mask_shape P P, ?_⟩
  rw [create_mask_entry]
  by_cases h : j ≤ i
  · rw [if_pos h]
    simp [h]
  · rw [if_neg h]
    simp [h]

/-- Witness for C3 at P = 5 with the in-range row 3 and column 1: the mask is
[1, 5, 5]-shaped and that permitted position is nonzero. -/
theorem c3_causal_mask_witness :
    (3 < 5 ∧ 1 < 5) ∧
      ((create_mask 5 5).shape = [1, 5, 5] ∧
        ((create_mask 5 5).entry [0, 3, 1] ≠ 0 ↔ 1 ≤ 3)) :=
  ⟨⟨by decide, by decide⟩, c3_causal_mask 5 3 1 (by decide) (by decide)⟩

/-- C4 counterexample: create_mask(2, 3) has shape [1, 3, 2], not the claimed
[1, pred_dim, pred_dim] = [1, 2, 2]. -/
theorem c4_counterexample :
    (create_mask 2 3).shape = [1, 3, 2] ∧ (create_mask 2 3).shape ≠ [1, 2, 2] := by
  constructor
  · exact create_mask_shape 2 3
  · rw [create_mask_shape 2 3]
    simp

/-- C4 amended: create_mask(pred_dim, context_dim) returns a 0/1 tensor of
shape [1, context_dim, pred_dim]; this equals [1, pred_dim, pred_dim] exactly
when the two arguments agree, as in every call in the repository. -/
theorem c4_mask_shape (p c : ℕ) :
    (create_mask p c).shape = [1, c, p] ∧
      ∀ i j, (create_mask p c).entry [0, i, j] = 0 ∨
        (create_mask p c).entry [0, i, j] = 1 := by
  refine ⟨create_mask_shape p c, ?_⟩
  intro i j
  rw [create_mask_entry]
  by_cases h : j ≤ i
  · rw [if_pos h]
    right
    rfl
  · rw [if_neg h]
    left
    rfl

/-- C8 counterexample: with window W = 1 a longer input does not fail; the
single positional row broadcasts silently, so the claim that every L > W
input fails fast is false at W = 1, L = 2. -/
theorem c8_counterexample :
    (1 : ℕ) < 2 ∧ (peForward (peTable 1 1) (zerosT [1, 2, 1])).isSome = true :=
  ⟨by decide, rfl⟩

/-- C8 amended: for a window of at least two rows, an input longer than the
window makes PositionalEncoding.forward fail fast, by a broadcast shape
mismatch in the addition (the slice itself clamps silently rather than
raising an index error); for W = 1 the row broadcasts silently instead. -/
theorem c8_fail_fast (W D B L : ℕ) (x : Tensor) (hx : x.shape = [B, L, D])
    (hW : 2 ≤ W) (hL : W < L) :
    peForward (peTable W D) x = none :=
  peForward_fail W D B L x hx hW hL

/-- Witness for C8 amended at W = 2, D = 1, input of length 3. -/
theorem c8_fail_fast_witness :
    ((zerosT [1, 3, 1]).shape = [1, 3, 1] ∧ 2 ≤ 2 ∧ 2 < 3) ∧
      peForward (peTable 2 1) (zerosT [1, 3, 1]) = none :=
  ⟨⟨rfl, by decide, by decide⟩,
    c8_fail_fast 2 1 1 3 (zerosT [1, 3, 1]) rfl (by decide) (by decide)⟩

/-- C6: the positional-encoding table built for window W and width D holds
sin(pos / 10000 ^ (2 i / D)) at even feature indices and
cos(pos / 10000 ^ (2 (i + 1) / D)) at odd ones; forward on a length-L input
with L ≤ W returns the input plus the first L table rows broadcast over the
batch, and an all-zero input returns exactly those table rows. -/
theorem c6_positional_encoding (W D B L : ℕ) (x : Tensor) (hx : x.shape = [B, L, D])
    (hL : L ≤ W) :
    (peTable W D).shape = [1, W, D] ∧
    (∀ pos i, (peTable W D).entry [0, pos, i] =
      if i % 2 = 0 then Real.sin ((pos : ℝ) / (10000 : ℝ) ^ ((2 * (i : ℝ)) / (D : ℝ)))
      else Real.cos ((pos : ℝ) / (10000 : ℝ) ^ ((2 * ((i : ℝ) + 1)) / (D : ℝ)))) ∧
    (∃ y, peForward (peTable W D) x = some y ∧ y.shape = [B, L, D] ∧
      ∀ bb p i, bb < B → p < L → i < D →
        y.entry [bb, p, i] = x.entry [bb, p, i] + (peTable W D).entry [0, p, i]) ∧
    (∃ z, peForward (peTable W D) (zerosT [B, L, D]) = some z ∧
      ∀ bb p i, bb < B → p < L → i < D →
        z.entry [bb, p, i] = (peTable W D).entry [0, p, i]) := by
  refine ⟨rfl, fun pos i => rfl, peForward_char W D B L x hx hL, ?_⟩
  obtain ⟨z, hz, _, hze⟩ := peForward_char W D B L (zerosT [B, L, D]) rfl hL
  refine ⟨z, hz, ?_⟩
  intro bb p i hbb hp hi
  rw [hze bb p i hbb hp hi]
  show (0 : ℝ) + _ = _
  rw [zero_add]

/-- Witness for C6 at W = 2, D = 1, a zero input of batch 1 and length 1. -/
theorem c6_positional_encoding_witness :
    ((zerosT [1, 1, 1]).shape = [1, 1, 1] ∧ 1 ≤ 2) ∧
      ((peTable 2 1).shape = [1, 2, 1] ∧
        ∃ y, peForward (peTable 2 1) (zerosT [1, 1, 1]) = some y ∧
          y.shape = [1, 1, 1]) := by
  obtain ⟨hsh, _, ⟨y, hy, hys, _⟩, _⟩ :=
    c6_positional_encoding 2 1 1 1 (zerosT [1, 1, 1]) rfl (by decide)
  exact ⟨⟨rfl, by decide⟩, hsh, y, hy, hys⟩

/-! Concrete weight assignments used to instantiate the claims. -/

/-- Keep-everything dropout decisions (evaluation mode). -/
def keepAll : List ℕ → Bool := fun _ => true

/-- Drop-everything dropout decisions. -/
def keepNone : List ℕ → Bool := fun _ => false

def zeroW2 : ℕ → ℕ → ℝ := fun _ _ => 0

def zeroW1 : ℕ → ℝ := fun _ => 0

def oneW2 : ℕ → ℕ → ℝ := fun _ _ => 1

def zeroNorm : NormW := ⟨zeroW1, zeroW1⟩

def zeroLin : LinW := ⟨zeroW2, zeroW1⟩

def zeroMHAW : MHAW := ⟨zeroW2, zeroW2, zeroW2, zeroW2, zeroW1, keepAll⟩

def zeroFFW : FFW := ⟨zeroLin, zeroLin, keepAll⟩

def zeroEncLayerW : EncLayerW := ⟨zeroNorm, zeroNorm, zeroMHAW, zeroFFW, keepAll, keepAll⟩

def zeroDecLayerW : DecLayerW :=
  ⟨zeroNorm, zeroNorm, zeroNorm, zeroMHAW, zeroMHAW, zeroFFW, keepAll, keepAll, keepAll⟩

/-- All-zero weights with no layers (stack depth N = 0). -/
def w0 : Ml4fW := ⟨[], zeroNorm, zeroLin, keepAll, [], zeroNorm, zeroLin, keepAll⟩

/-- All-zero weights with one encoder and one decoder layer (N = 1). -/
def w1 : Ml4fW :=
  ⟨[zeroEncLayerW], zeroNorm, zeroLin, keepAll, [zeroDecLayerW], zeroNorm, zeroLin, keepAll⟩

/-- C1 counterexample: with d_model_d = 2 (and otherwise valid configuration
and inputs) the forward pass fails: dec_output.view(b, pred_window) cannot
reshape the b * pred_window * 2 elements of the decoder output, so no output
of shape [batch, pred_window] is returned.  The claim fails for every
d_model_d other than 1. -/
theorem c1_counterexample :
    ml4fForward (mkMl4f "return" 1 2 1 (create_mask 1 1) 0 1 1 1 w0)
      (zerosT [1, 1, 1]) (zerosT [1, 1, 2]) = none := rfl

/-- C1 amended: for every valid input pair and every d_model_e, heads, stack
depth (the lists of layer weights), batch and window configuration with
d_model_d = 1 and a mask matching pred_window, forward succeeds and returns
a tensor of shape exactly [batch, pred_window]. -/
theorem c1_shape_invariance (experiment : String) (de heads cw pw pew b : ℕ)
    (fm : Tensor) (drop : ℝ) (w : Ml4fW) (x y : Tensor)
    (hb : 0 < b) (hde : 0 < de) (hh : 0 < heads) (hcw : 0 < cw) (hpw : 0 < pw)
    (hcwW : cw ≤ pew) (hpwW : pw ≤ pew) (hfm : fm.shape = [1, pw, pw])
    (hx : x.shape = [b, cw, de]) (hy : y.shape = [b, pw, 1]) :
    ∃ t, ml4fForward (mkMl4f experiment de 1 heads fm drop cw pw pew w) x y = some t ∧
      t.shape = [b, pw] := by
  obtain ⟨d, t, _, _, hfwd, hts⟩ := ml4f_char experiment de heads cw pw pew b fm drop
    w x y hb hde hh hcw hpw hcwW hpwW hfm hx hy
  exact ⟨t, hfwd, hts⟩

/-- Witness for C1 amended: the concrete scenario scaled to one layer,
batch 2, context window 3, d_model_e 2, pred_window 2, heads 2. -/
theorem c1_shape_invariance_witness :
    ((0 : ℕ) < 2 ∧ (create_mask 2 2).shape = [1, 2, 2] ∧
      (zerosT [2, 3, 2]).shape = [2, 3, 2] ∧ (zerosT [2, 2, 1]).shape = [2, 2, 1]) ∧
      ∃ t, ml4fForward (mkMl4f "return" 2 1 2 (create_mask 2 2) 0 3 2 3 w1)
        (zerosT [2, 3, 2]) (zerosT [2, 2, 1]) = some t ∧ t.shape = [2, 2] :=
  ⟨⟨by decide, create_mask_shape 2 2, rfl, rfl⟩,
    c1_shape_invariance "return" 2 2 3 2 3 2 (create_mask 2 2) 0 w1
      (zerosT [2, 3, 2]) (zerosT [2, 2, 1]) (by decide) (by decide) (by decide)
      (by decide) (by decide) (by decide) (by decide) (create_mask_shape 2 2) rfl rfl⟩

/-! Failure of the decoder masked self-attention under a mismatched mask. -/

theorem maskedFillT_none_badmask (t mk : Tensor) (v : ℝ) (BH s : ℕ)
    (ht : t.shape = [BH, s, s]) (hmks : mk.shape = [1, 5, 5]) (hs : s ≠ 5) :
    maskedFillT t mk v = none := by
  have hc : compatR mk.shape.reverse t.shape.reverse = false := by
    rw [hmks, ht]
    show compatR [5, 5, 1] [s, s, BH] = false
    simp [compatR]
    omega
  rw [maskedFillT, hc]
  rfl

theorem mha_none_badmask (heads dm : ℕ) (w : MHAW) (drop : ℝ) (mk : Tensor)
    (q k v : Tensor) (b s : ℕ) (hb : 0 < b) (hh : 0 < heads) (hd : 0 < dm)
    (hq : q.shape = [b, s, dm]) (hk : k.shape = [b, s, dm]) (hv : v.shape = [b, s, dm])
    (hmks : mk.shape = [1, 5, 5]) (hs : s ≠ 5) :
    mhaForward (mkMHA heads dm w drop (some mk)) q k v = none := by
  have hgd : q.shape.getD 0 0 = b := by rw [hq]; rfl
  obtain ⟨k1, hk1, hk1s, _⟩ := linearNB_some (mkMHA heads dm w drop (some mk)).k_linear k
    (by rw [hk]; simp) (by rw [hk]; rfl)
  have hk1s2 : k1.shape = [b, s, heads * dm] := by rw [hk1s, hk, setLast_three]; rfl
  obtain ⟨k2, hk2, hk2s, _⟩ := splitLast_view k1 b s heads dm hb hh hd hk1s2
  obtain ⟨q1, hq1, hq1s, _⟩ := linearNB_some (mkMHA heads dm w drop (some mk)).q_linear q
    (by rw [hq]; simp) (by rw [hq]; rfl)
  have hq1s2 : q1.shape = [b, s, heads * dm] := by rw [hq1s, hq, setLast_three]; rfl
  obtain ⟨q2, hq2, hq2s, _⟩ := splitLast_view q1 b s heads dm hb hh hd hq1s2
  obtain ⟨v1, hv1, hv1s, _⟩ := linearNB_some (mkMHA heads dm w drop (some mk)).v_linear v
    (by rw [hv]; simp) (by rw [hv]; rfl)
  have hv1s2 : v1.shape = [b, s, heads * dm] := by rw [hv1s, hv, setLast_three]; rfl
  obtain ⟨v2, hv2, hv2s, _⟩ := splitLast_view v1 b s heads dm hb hh hd hv1s2
  have hsdpa : scaled_dot_product_attention k2 q2 v2 (some mk) = none := by
    rw [sdpa_eq_chain k2 q2 v2 (some mk) b s heads dm hk2s]
    obtain ⟨k3, hk3, hk3s, _⟩ := mergeHeads k2 b s heads dm hb hh hd hk2s
    obtain ⟨q3, hq3, hq3s, _⟩ := mergeHeads q2 b s heads dm hb hh hd hq2s
    obtain ⟨v3, hv3, hv3s, _⟩ := mergeHeads v2 b s heads dm hb hh hd hv2s
    have hk3T : (transposeT k3 1 2).shape = [b * heads, dm, s] := by
      show swapIdx 1 2 k3.shape = _
      rw [hk3s, swapIdx12_3]
    obtain ⟨s0, hs0, hs0s, _⟩ := bmmT_some q3 (transposeT k3 1 2) (b * heads) s dm s
      hq3s hk3T
    have hfill : maskedFillT s0 mk (-1e9) = none :=
      maskedFillT_none_badmask s0 mk (-1e9) (b * heads) s hs0s hmks hs
    rw [hk3, Option.some_bind, hq3, Option.some_bind, hv3, Option.some_bind, hs0,
      Option.some_bind]
    show ((maskedFillT s0 mk (-1e9)).bind _) = none
    rw [hfill, Option.none_bind]
  simp only [mhaForward, hgd, mkMHA_h, mkMHA_dm, mkMHA_mask]
  rw [hk1, Option.some_bind, hk2, Option.some_bind, hq1, Option.some_bind, hq2,
    Option.some_bind, hv1, Option.some_bind, hv2, Option.some_bind, hsdpa,
    Option.none_bind]

theorem decLayer_none (heads dm : ℕ) (mk : Tensor) (drop : ℝ) (w : DecLayerW)
    (x enc_out : Tensor) (b s : ℕ) (hb : 0 < b) (hh : 0 < heads) (hd : 0 < dm)
    (hx : x.shape = [b, s, dm]) (hmks : mk.shape = [1, 5, 5]) (hs : s ≠ 5) :
    decLayerForward (mkDecLayer heads dm mk drop w) x enc_out = none := by
  obtain ⟨x2, hx2, hx2s⟩ := layerNormT_some dm w.n1 x (by rw [hx]; simp) (by rw [hx]; rfl)
  have hx2s2 : x2.shape = [b, s, dm] := hx2s.trans hx
  have hattn := mha_none_badmask heads dm w.attn1 drop mk x2 x2 x2 b s hb hh hd
    hx2s2 hx2s2 hx2s2 hmks hs
  simp only [decLayerForward, mkDecLayer]
  rw [hx2, Option.some_bind, hattn, Option.none_bind]

theorem decoderForward_pe_none (pew heads dm : ℕ) (mk : Tensor) (drop : ℝ)
    (ws : List DecLayerW) (nw : NormW) (y enc_out : Tensor)
    (hpe : peForward (peTable pew dm) y = none) :
    decoderForward (mkDecoder pew heads dm mk drop ws nw) y enc_out = none := by
  simp only [decoderForward, mkDecoder]
  rw [hpe, Option.none_bind]

theorem decoder_none (pew heads dm : ℕ) (mk : Tensor) (drop : ℝ) (wl : DecLayerW)
    (wrest : List DecLayerW) (nw : NormW) (y enc_out : Tensor) (b s : ℕ)
    (hb : 0 < b) (hh : 0 < heads) (hd : 0 < dm) (hy : y.shape = [b, s, dm])
    (hspos : 0 < s) (hsW : s ≤ pew ∨ pew = 1) (hmks : mk.shape = [1, 5, 5])
    (hs : s ≠ 5) :
    decoderForward (mkDecoder pew heads dm mk drop (wl :: wrest) nw) y enc_out = none ∧
    ∃ y0, peForward (peTable pew dm) y = some y0 ∧ y0.shape = [b, s, dm] ∧
      ∃ x2, layerNormT dm wl.n1 y0 = some x2 ∧
        mhaForward (mkMHA heads dm wl.attn1 drop (some mk)) x2 x2 x2 = none := by
  obtain ⟨y0, hy0, hy0s⟩ := peForward_some_shape pew dm b s y hy hspos hsW
  obtain ⟨x2, hx2, hx2s⟩ := layerNormT_some dm wl.n1 y0 (by rw [hy0s]; simp)
    (by rw [hy0s]; rfl)
  have hx2s2 : x2.shape = [b, s, dm] := hx2s.trans hy0s
  have hattn := mha_none_badmask heads dm wl.attn1 drop mk x2 x2 x2 b s hb hh hd
    hx2s2 hx2s2 hx2s2 hmks hs
  have hlayer := decLayer_none heads dm mk drop wl y0 enc_out b s hb hh hd hy0s hmks hs
  constructor
  · simp only [decoderForward, mkDecoder, List.map_cons]
    rw [hy0, Option.some_bind]
    show (((decLayerForward (mkDecLayer heads dm mk drop wl) y0 enc_out).bind _).bind _)
      = none
    rw [hlayer, Option.none_bind, Option.none_bind]
  · exact ⟨y0, hy0, hy0s, x2, hx2, hattn⟩

/-- C10 counterexample: a model built with the default mask, pred_window = 4
and no layers (N = 0) runs its first forward call successfully, so it is not
true that every default-mask model with pred_window different from 5 fails. -/
theorem c10_counterexample :
    (4 : ℕ) ≠ 5 ∧
    (ml4fForward (mkMl4f "return" 1 1 1 defaultFirstMask 0 1 4 4 w0)
      (zerosT [1, 1, 1]) (zerosT [1, 4, 1])).isSome = true :=
  ⟨by decide, rfl⟩

/-- C10 amended: the default first_mask is the fixed constant create_mask(5, 5)
of shape [1, 5, 5], shared by every instance constructed without an explicit
mask, and construction itself always succeeds.  For every default-mask model
with pred_window ≠ 5, stack depth at least 1 and d_model_d ≥ 1, whenever each
window either fits the positional table or the table holds a single row that
broadcasts silently (context_window ≤ pe_window or pe_window = 1, and
pred_window ≤ pe_window or pe_window = 1), the first forward call fails with a
shape mismatch inside the masked self-attention of the first decoder layer:
the decoder positional encoding and the pre-norm succeed and the masked
attention call itself returns the error, the [1, 5, 5] mask not being
broadcastable to the [batch * heads, pred_window, pred_window] scores.  Away
from that regime the failure point moves: for d_model_d = 0 the forward call
fails earlier, at the bridge reshape enc_map.view(-1, pred_window, 0), before
the decoder runs, and for 2 ≤ pe_window < pred_window it fails at the
decoder's positional-encoding broadcast addition.  (For N = 0 the call
instead succeeds end to end: see the counterexample.) -/
theorem c10_default_mask_failure :
    (defaultFirstMask = create_mask 5 5 ∧ defaultFirstMask.shape = [1, 5, 5]) ∧
    (∀ (experiment : String) (de dd heads cw pw pew b : ℕ) (drop : ℝ)
        (wl : DecLayerW) (wrest : List DecLayerW) (w : Ml4fW) (x y : Tensor),
      0 < b → 0 < de → 0 < dd → 0 < heads → 0 < cw → 0 < pw →
      (cw ≤ pew ∨ pew = 1) → (pw ≤ pew ∨ pew = 1) → pw ≠ 5 →
      w.decW = wl :: wrest → x.shape = [b, cw, de] → y.shape = [b, pw, dd] →
      ml4fForward (mkMl4f experiment de dd heads defaultFirstMask drop cw pw pew w) x y
          = none ∧
        ∃ y0, peForward (peTable pew dd) y = some y0 ∧
          ∃ x2, layerNormT dd wl.n1 y0 = some x2 ∧
            mhaForward (mkMHA heads dd wl.attn1 drop (some defaultFirstMask)) x2 x2 x2
              = none) ∧
    (∀ (experiment : String) (de heads cw pw pew b : ℕ) (drop : ℝ) (w : Ml4fW)
        (x y : Tensor),
      0 < b → 0 < de → 0 < heads → 0 < cw → (cw ≤ pew ∨ pew = 1) →
      x.shape = [b, cw, de] →
      ml4fForward (mkMl4f experiment de 0 heads defaultFirstMask drop cw pw pew w) x y
        = none) ∧
    (∀ (experiment : String) (de dd heads cw pw pew b : ℕ) (drop : ℝ) (w : Ml4fW)
        (x y : Tensor),
      0 < b → 0 < de → 0 < dd → 0 < heads → 0 < cw → 0 < pw →
      cw ≤ pew → 2 ≤ pew → pew < pw →
      x.shape = [b, cw, de] → y.shape = [b, pw, dd] →
      ml4fForward (mkMl4f experiment de dd heads defaultFirstMask drop cw pw pew w) x y
          = none ∧
        peForward (peTable pew dd) y = none) := by
  have hm5 : defaultFirstMask.shape = [1, 5, 5] := create_mask_shape 5 5
  refine ⟨⟨rfl, hm5⟩, ?_, ?_, ?_⟩
  · intro experiment de dd heads cw pw pew b drop wl wrest w x y hb hde hdd hh hcw hpw
      hcwW hpwW hpw5 hdecW hx hy
    have hgd : x.shape.getD 0 0 = b := by rw [hx]; rfl
    obtain ⟨enc, henc, hencs⟩ := encoder_char pew heads de drop w.encW w.encNorm x b cw
      hb hh hde hx hcw hcwW
    obtain ⟨e1, he1, he1s⟩ := view_flatten_pair enc b cw de hb hencs
    obtain ⟨e2, he2, he2s, _⟩ :=
      linearT_some ⟨pw * dd, cw * de, w.learnW.W, w.learnW.b⟩ e1 (by rw [he1s]; simp)
        (by rw [he1s]; rfl)
    have he2s2 : e2.shape = [b, pw * dd] := by rw [he2s, he1s, setLast_two]
    have hdr : (dropoutT w.learnKeep drop (reluT e2)).shape = [b, pw * dd] := by
      rw [dropoutT_shape, reluT_shape, he2s2]
    obtain ⟨em, hem, hems⟩ := view_unflatten3 (dropoutT w.learnKeep drop (reluT e2))
      b pw dd (Nat.mul_pos hpw hdd) hdr
    obtain ⟨hdec, hinside⟩ := decoder_none pew heads dd defaultFirstMask drop wl wrest
      w.decNorm y em b pw hb hh hdd hy hpw hpwW hm5 hpw5
    refine ⟨?_, ?_⟩
    · simp only [ml4fForward, hgd, mkMl4f_enc, mkMl4f_learnLin, mkMl4f_learnKeep,
        mkMl4f_learnP, mkMl4f_pw, mkMl4f_dd, mkMl4f_dec]
      rw [henc, Option.some_bind, he1, Option.some_bind, he2, Option.some_bind, hem,
        Option.some_bind, hdecW, hdec, Option.none_bind]
    · obtain ⟨y0, hy0, _, x2, hx2, hattn⟩ := hinside
      exact ⟨y0, hy0, x2, hx2, hattn⟩
  · intro experiment de heads cw pw pew b drop w x y hb hde hh hcw hcwW hx
    have hgd : x.shape.getD 0 0 = b := by rw [hx]; rfl
    obtain ⟨enc, henc, hencs⟩ := encoder_char pew heads de drop w.encW w.encNorm x b cw
      hb hh hde hx hcw hcwW
    obtain ⟨e1, he1, he1s⟩ := view_flatten_pair enc b cw de hb hencs
    obtain ⟨e2, he2, he2s, _⟩ :=
      linearT_some ⟨pw * 0, cw * de, w.learnW.W, w.learnW.b⟩ e1 (by rw [he1s]; simp)
        (by rw [he1s]; rfl)
    have hview : viewT (dropoutT w.learnKeep drop (reluT e2))
        [-1, (pw : ℤ), ((0 : ℕ) : ℤ)] = none := by
      rw [viewT, resolveDims_head3, if_neg (by rintro ⟨h1, h2⟩; omega)]
    simp only [ml4fForward, hgd, mkMl4f_enc, mkMl4f_learnLin, mkMl4f_learnKeep,
      mkMl4f_learnP, mkMl4f_pw, mkMl4f_dd]
    rw [henc, Option.some_bind, he1, Option.some_bind, he2, Option.some_bind, hview,
      Option.none_bind]
  · intro experiment de dd heads cw pw pew b drop w x y hb hde hdd hh hcw hpw hcwW
      hpew2 hpewlt hx hy
    have hgd : x.shape.getD 0 0 = b := by rw [hx]; rfl
    obtain ⟨enc, henc, hencs⟩ := encoder_char pew heads de drop w.encW w.encNorm x b cw
      hb hh hde hx hcw (Or.inl hcwW)
    obtain ⟨e1, he1, he1s⟩ := view_flatten_pair enc b cw de hb hencs
    obtain ⟨e2, he2, he2s, _⟩ :=
      linearT_some ⟨pw * dd, cw * de, w.learnW.W, w.learnW.b⟩ e1 (by rw [he1s]; simp)
        (by rw [he1s]; rfl)
    have he2s2 : e2.shape = [b, pw * dd] := by rw [he2s, he1s, setLast_two]
    have hdr : (dropoutT w.learnKeep drop (reluT e2)).shape = [b, pw * dd] := by
      rw [dropoutT_shape, reluT_shape, he2s2]
    obtain ⟨em, hem, hems⟩ := view_unflatten3 (dropoutT w.learnKeep drop (reluT e2))
      b pw dd (Nat.mul_pos hpw hdd) hdr
    have hpe : peForward (peTable pew dd) y = none :=
      peForward_fail pew dd b pw y hy hpew2 hpewlt
    have hdec : decoderForward (mkDecoder pew heads dd defaultFirstMask drop w.decW
        w.decNorm) y em = none :=
      decoderForward_pe_none pew heads dd defaultFirstMask drop w.decW w.decNorm y em hpe
    refine ⟨?_, hpe⟩
    simp only [ml4fForward, hgd, mkMl4f_enc, mkMl4f_learnLin, mkMl4f_learnKeep,
      mkMl4f_learnP, mkMl4f_pw, mkMl4f_dd, mkMl4f_dec]
    rw [henc, Option.some_bind, he1, Option.some_bind, he2, Option.some_bind, hem,
      Option.some_bind, hdec, Option.none_bind]

/-- Witness for C10 amended, in the masked self-attention regime: one decoder
layer, pred_window 4, pe_window 4, d_model_d 1, default mask. -/
theorem c10_default_mask_failure_witness :
    ((4 : ℕ) ≠ 5 ∧ w1.decW = zeroDecLayerW :: [] ∧
      (zerosT [1, 4, 1]).shape = [1, 4, 1]) ∧
    ml4fForward (mkMl4f "return" 1 1 1 defaultFirstMask 0 1 4 4 w1)
      (zerosT [1, 1, 1]) (zerosT [1, 4, 1]) = none := by
  obtain ⟨hnone, _⟩ := c10_default_mask_failure.2.1 "return" 1 1 1 1 4 4 1 0
    zeroDecLayerW [] w1 (zerosT [1, 1, 1]) (zerosT [1, 4, 1]) (by decide) (by decide)
    (by decide) (by decide) (by decide) (by decide) (Or.inl (by decide))
    (Or.inl (by decide)) (by decide) rfl rfl rfl
  exact ⟨⟨by decide, rfl, rfl⟩, hnone⟩

/-! Inversion of a successful forward pass and bounds of the final block. -/

theorem mkMl4f_mapLin (e : String) (de dd heads : ℕ) (fm : Tensor) (drop : ℝ)
    (cw pw pew : ℕ) (w : Ml4fW) :
    (mkMl4f e de dd heads fm drop cw pw pew w).mapLin =
      ⟨pw, pw, w.mapW.W, w.mapW.b⟩ := rfl

theorem mkMl4f_mapKeep (e : String) (de dd heads : ℕ) (fm : Tensor) (drop : ℝ)
    (cw pw pew : ℕ) (w : Ml4fW) :
    (mkMl4f e de dd heads fm drop cw pw pew w).mapKeep = w.mapKeep := rfl

theorem mkMl4f_mapP (e : String) (de dd heads : ℕ) (fm : Tensor) (drop : ℝ)
    (cw pw pew : ℕ) (w : Ml4fW) :
    (mkMl4f e de dd heads fm drop cw pw pew w).mapP = drop := rfl

theorem ml4fForward_inv (m : Ml4fP) (x y t : Tensor)
    (h : ml4fForward m x y = some t) : ∃ d, mapForward m d = some t := by
  simp only [ml4fForward] at h
  rcases Option.bind_eq_some.mp h with ⟨enc, _, h2⟩
  rcases Option.bind_eq_some.mp h2 with ⟨e1, _, h3⟩
  rcases Option.bind_eq_some.mp h3 with ⟨e2, _, h4⟩
  rcases Option.bind_eq_some.mp h4 with ⟨em, _, h5⟩
  rcases Option.bind_eq_some.mp h5 with ⟨dec, _, h6⟩
  rcases Option.bind_eq_some.mp h6 with ⟨dflat, _, h7⟩
  exact ⟨dflat, h7⟩

theorem mapForward_inv (m : Ml4fP) (d t : Tensor) (h : mapForward m d = some t) :
    ∃ a, linearT m.mapLin d = some a ∧
      ((m.experiment = "return" ∧ t = dropoutT m.mapKeep m.mapP (reluT a)) ∨
       (m.experiment ≠ "return" ∧ t = sigmoidT (dropoutT m.mapKeep m.mapP (reluT a)))) := by
  rw [mapForward] at h
  rcases Option.bind_eq_some.mp h with ⟨a, ha, h2⟩
  by_cases hexp : m.experiment = "return"
  · rw [if_pos hexp] at h2
    exact ⟨a, ha, Or.inl ⟨hexp, (Option.some.inj h2).symm⟩⟩
  · rw [if_neg hexp] at h2
    exact ⟨a, ha, Or.inr ⟨hexp, (Option.some.inj h2).symm⟩⟩

theorem dropRelu_nonneg (k : List ℕ → Bool) (p : ℝ) (a : Tensor) (hp : p ≤ 1)
    (ix : List ℕ) : 0 ≤ (dropoutT k p (reluT a)).entry ix := by
  simp only [dropoutT, reluT]
  split_ifs
  · apply div_nonneg (le_max_right _ _)
    linarith
  · exact le_refl 0

theorem sigmoidT_pos (u : Tensor) (ix : List ℕ) : 0 < (sigmoidT u).entry ix := by
  show 0 < 1 / (1 + Real.exp (-(u.entry ix)))
  positivity

theorem sigmoidT_lt_one (u : Tensor) (ix : List ℕ) : (sigmoidT u).entry ix < 1 := by
  show 1 / (1 + Real.exp (-(u.entry ix))) < 1
  rw [div_lt_one (by positivity)]
  have h := Real.exp_pos (-(u.entry ix))
  linarith

theorem sigmoidT_ge_half (u : Tensor) (ix : List ℕ) (h : 0 ≤ u.entry ix) :
    1 / 2 ≤ (sigmoidT u).entry ix := by
  show 1 / 2 ≤ 1 / (1 + Real.exp (-(u.entry ix)))
  have h1 : Real.exp (-(u.entry ix)) ≤ 1 := by
    have h2 := Real.exp_le_exp.mpr (neg_nonpos.mpr h)
    rwa [Real.exp_zero] at h2
  have h3 : (0 : ℝ) < 1 + Real.exp (-(u.entry ix)) := by positivity
  rw [div_le_div_iff₀ (by norm_num) h3]
  linarith

/-- Weights of the final map whose linear part is zero with bias two. -/
def biasTwoLin : LinW := ⟨zeroW2, fun _ => 2⟩

/-- Zero-weight model of the "return" variant whose final bias is 2. -/
def c5model : Ml4fP :=
  mkMl4f "return" 1 1 1 (create_mask 1 1) 0 1 1 1
    ⟨[], zeroNorm, zeroLin, keepAll, [], zeroNorm, biasTwoLin, keepAll⟩

/-- Zero-weight model of a non-"return" variant. -/
def c5other : Ml4fP := mkMl4f "other" 1 1 1 (create_mask 1 1) 0 1 1 1 w0

/-- C5: in the "return" variant the output is unbounded — a concrete choice
of weights and inputs produces the value 2, outside [0, 1] — while in every
other variant every output entry lies strictly inside (0, 1), since the final
block ends in a sigmoid. -/
theorem c5_activation_bounds :
    (∃ t, ml4fForward c5model (zerosT [1, 1, 1]) (zerosT [1, 1, 1]) = some t ∧
      t.entry [0, 0] = 2 ∧ 1 < t.entry [0, 0]) ∧
    (∀ (m : Ml4fP) (x y t : Tensor), m.experiment ≠ "return" →
      ml4fForward m x y = some t → ∀ ix, 0 < t.entry ix ∧ t.entry ix < 1) := by
  constructor
  · obtain ⟨d, t, hds, hmap, hfwd, _⟩ := ml4f_char "return" 1 1 1 1 1 1 (create_mask 1 1)
      0 ⟨[], zeroNorm, zeroLin, keepAll, [], zeroNorm, biasTwoLin, keepAll⟩
      (zerosT [1, 1, 1]) (zerosT [1, 1, 1]) one_pos one_pos one_pos one_pos one_pos
      (le_refl 1) (le_refl 1) (create_mask_shape 1 1) rfl rfl
    obtain ⟨a, ha, hcase⟩ := mapForward_inv c5model d t hmap
    rcases hcase with ⟨_, ht⟩ | ⟨hne, _⟩
    · obtain ⟨a2, ha2, _, hae⟩ := linearT_some c5model.mapLin d (by rw [hds]; simp)
        (by rw [hds]; rfl)
      have haa : a2 = a := by
        have := ha2.symm.trans ha
        exact Option.some.inj this
      have hval : a.entry [0, 0] = 2 := by
        rw [← haa, hae [0, 0]]
        show (∑ i ∈ Finset.range 1, zeroW2 0 i * d.entry (setLast [0, 0] i)) + 2 = 2
        rw [Finset.sum_range_one]
        simp [zeroW2]
      refine ⟨t, hfwd, ?_, ?_⟩
      · rw [ht]
        show (if keepAll [0, 0] = true then max (a.entry [0, 0]) 0 / (1 - 0) else 0) = 2
        rw [if_pos (show keepAll [0, 0] = true from rfl), hval]
        norm_num
      · rw [ht]
        show 1 < (if keepAll [0, 0] = true then max (a.entry [0, 0]) 0 / (1 - 0) else 0)
        rw [if_pos (show keepAll [0, 0] = true from rfl), hval]
        norm_num
    · exact absurd rfl hne
  · intro m x y t hexp h ix
    obtain ⟨d, hd⟩ := ml4fForward_inv m x y t h
    obtain ⟨a, _, hcase⟩ := mapForward_inv m d t hd
    rcases hcase with ⟨he, _⟩ | ⟨_, ht⟩
    · exact absurd he hexp
    · rw [ht]
      exact ⟨sigmoidT_pos _ ix, sigmoidT_lt_one _ ix⟩

/-- Witness for C5 at a concrete non-"return" model: the hypothesis that the
forward pass succeeds is discharged by evaluation, and the bound follows by
applying the theorem. -/
theorem c5_activation_bounds_witness :
    c5other.experiment ≠ "return" ∧
    0 < ((ml4fForward c5other (zerosT [1, 1, 1]) (zerosT [1, 1, 1])).getD
      (zerosT [])).entry [0, 0] := by
  have hrfl : ml4fForward c5other (zerosT [1, 1, 1]) (zerosT [1, 1, 1]) =
      some ((ml4fForward c5other (zerosT [1, 1, 1]) (zerosT [1, 1, 1])).getD
        (zerosT [])) := rfl
  exact ⟨by decide,
    ((c5_activation_bounds.2 c5other (zerosT [1, 1, 1]) (zerosT [1, 1, 1]) _
      (by decide) hrfl) [0, 0]).1⟩

/-- C9: in the final block ReLU precedes the optional sigmoid, so (with a
dropout rate of at most 1, as nn.Dropout enforces at construction) every
output entry of the "return" variant is nonnegative and every output entry
of a non-"return" variant lies in [1/2, 1), not merely (0, 1). -/
theorem c9_output_bounds (m : Ml4fP) (x y t : Tensor)
    (h : ml4fForward m x y = some t) (hp : m.mapP ≤ 1) :
    (m.experiment = "return" → ∀ ix, 0 ≤ t.entry ix) ∧
    (m.experiment ≠ "return" → ∀ ix, 1 / 2 ≤ t.entry ix ∧ t.entry ix < 1) := by
  obtain ⟨d, hd⟩ := ml4fForward_inv m x y t h
  obtain ⟨a, _, hcase⟩ := mapForward_inv m d t hd
  constructor
  · intro hexp ix
    rcases hcase with ⟨_, ht⟩ | ⟨hne, _⟩
    · rw [ht]
      exact dropRelu_nonneg m.mapKeep m.mapP a hp ix
    · exact absurd hexp hne
  · intro hexp ix
    rcases hcase with ⟨he, _⟩ | ⟨_, ht⟩
    · exact absurd he hexp
    · rw [ht]
      exact ⟨sigmoidT_ge_half _ ix (dropRelu_nonneg m.mapKeep m.mapP a hp ix),
        sigmoidT_lt_one _ ix⟩

/-- Witness for C9 at the concrete "return" model with bias 2. -/
theorem c9_output_bounds_witness :
    c5model.mapP ≤ 1 ∧ c5model.experiment = "return" ∧
    0 ≤ ((ml4fForward c5model (zerosT [1, 1, 1]) (zerosT [1, 1, 1])).getD
      (zerosT [])).entry [0, 0] := by
  have hrfl : ml4fForward c5model (zerosT [1, 1, 1]) (zerosT [1, 1, 1]) =
      some ((ml4fForward c5model (zerosT [1, 1, 1]) (zerosT [1, 1, 1])).getD
        (zerosT [])) := rfl
  refine ⟨by norm_num [c5model, mkMl4f_mapP], rfl, ?_⟩
  exact (c9_output_bounds c5model (zerosT [1, 1, 1]) (zerosT [1, 1, 1]) _ hrfl
    (by norm_num [c5model, mkMl4f_mapP])).1 rfl [0, 0]

/-- Reference single-head unscaled dot-product attention, written from the
specification as an independent formula: softmax over the raw dot-product
scores of the query row against every key row, weighting the value rows. -/
def singleHeadRef (qf kf vf : ℕ → ℕ → ℝ) (sk D i e : ℕ) : ℝ :=
  ∑ j ∈ Finset.range sk,
    (Real.exp (∑ l ∈ Finset.range D, qf i l * kf j l) /
      ∑ j2 ∈ Finset.range sk, Real.exp (∑ l ∈ Finset.range D, qf i l * kf j2 l)) *
      vf j e

/-- C2: the attention core computes raw scores Q Kᵀ with no 1/sqrt(d)
scaling, replaces mask == 0 positions with -1e9 before the softmax, applies
the softmax along the key axis, multiplies by V, and returns shape
[batch, seq_q, heads * d]; for heads = 1 and batch = 1 with no mask it equals
the reference single-head unscaled dot-product attention. -/
theorem c2_attention_core (B sq sk H D : ℕ) (k q v : Tensor) (mask : Option Tensor)
    (hB : 0 < B) (hH : 0 < H) (hD : 0 < D)
    (hk : k.shape = [B, sk, H, D]) (hq : q.shape = [B, sq, H, D])
    (hv : v.shape = [B, sk, H, D])
    (hm : mask = none ∨ ∃ mk, mask = some mk ∧ mk.shape = [1, sq, sk]) :
    ∃ out, scaled_dot_product_attention k q v mask = some out ∧
      out.shape = [B, sq, H * D] ∧
      (∀ bb hh i e, bb < B → hh < H → i < sq → e < D →
        out.entry [bb, i, hh * D + e] = sdpaSpecEntry mask q k v D sk bb hh i e) ∧
      (B = 1 → H = 1 → mask = none → ∀ i e, i < sq → e < D →
        out.entry [0, i, e] = singleHeadRef (fun i2 l => q.entry [0, i2, 0, l])
          (fun j l => k.entry [0, j, 0, l]) (fun j e2 => v.entry [0, j, 0, e2])
          sk D i e) := by
  obtain ⟨out, h1, h2, h3⟩ := sdpa_char B sq sk H D k q v mask hB hH hD hk hq hv hm
  refine ⟨out, h1, h2, h3, ?_⟩
  rintro rfl rfl rfl i e hi he
  have h4 := h3 0 0 i e (by norm_num) (by norm_num) hi he
  rw [zero_mul, zero_add] at h4
  rw [h4]
  rfl

/-- Witness for C2 on a concrete all-ones rank-4 tensor with one batch, one
position, one head and one feature. -/
theorem c2_attention_core_witness :
    (onesT [1, 1, 1, 1]).shape = [1, 1, 1, 1] ∧
    ∃ out, scaled_dot_product_attention (onesT [1, 1, 1, 1]) (onesT [1, 1, 1, 1])
      (onesT [1, 1, 1, 1]) none = some out ∧ out.shape = [1, 1, 1] := by
  obtain ⟨out, h1, h2, _, _⟩ := c2_attention_core 1 1 1 1 1 (onesT [1, 1, 1, 1])
    (onesT [1, 1, 1, 1]) (onesT [1, 1, 1, 1]) none (by decide) (by decide) (by decide)
    rfl rfl rfl (Or.inl rfl)
  exact ⟨rfl, out, h1, h2⟩

/-! The dropout clause of the MultiHeadAttention claim. -/

/-- Modelled from the spec: the forward pass of MultiHeadAttention as the
specification describes it, with the dropout submodule applied after the
unifying linear map — the one step the source constructs but never runs. -/
def mhaForwardSpec (m : MHAP) (q k v : Tensor) : Option Tensor :=
  (mhaForward m q k v).map (dropoutT m.dropKeep m.dropP)

/-- All-one projection weights with drop-everything dropout decisions. -/
def c7w : MHAW := ⟨oneW2, oneW2, oneW2, oneW2, zeroW1, keepNone⟩

/-- A single-head width-one attention instance whose sampled dropout mask
drops every entry. -/
def c7mha : MHAP := mkMHA 1 1 c7w 0 none

/-- C7 counterexample: MultiHeadAttention.forward does not apply its dropout
submodule: on all-one inputs the source forward returns the value 1 while the
spec-modelled forward (with the sampled dropout applied after unification)
returns 0, so the two disagree. -/
theorem c7_counterexample :
    mhaForward c7mha (onesT [1, 1, 1]) (onesT [1, 1, 1]) (onesT [1, 1, 1]) ≠
      mhaForwardSpec c7mha (onesT [1, 1, 1]) (onesT [1, 1, 1]) (onesT [1, 1, 1]) := by
  obtain ⟨out, hout, houts, houte⟩ := mha_char 1 1 c7w 0 none (onesT [1, 1, 1])
    (onesT [1, 1, 1]) (onesT [1, 1, 1]) 1 1 1 one_pos one_pos one_pos rfl rfl rfl
    (Or.inl rfl)
  have h1 : out.entry [0, 0, 0] = 1 := by
    rw [houte 0 0 0 one_pos one_pos]
    simp [sdpaSpecEntry, smWeight, maskScore, rawScore, projT, projHead, c7w, oneW2,
      zeroW1, onesT, Finset.sum_range_one, Real.exp_ne_zero, div_self]
  intro hcontra
  have h2 : out = dropoutT c7mha.dropKeep c7mha.dropP out := by
    have h3 := hcontra
    rw [mhaForwardSpec, show c7mha = mkMHA 1 1 c7w 0 none from rfl, hout] at h3
    simpa using h3
  have h4 : out.entry [0, 0, 0] = (dropoutT c7mha.dropKeep c7mha.dropP out).entry
      [0, 0, 0] := by
    rw [← h2]
  have h5 : (dropoutT c7mha.dropKeep c7mha.dropP out).entry [0, 0, 0] = 0 := by
    show (if keepNone [0, 0, 0] = true then out.entry [0, 0, 0] / (1 - c7mha.dropP)
      else (0 : ℝ)) = 0
    rw [if_neg (by simp [keepNone])]
  rw [h1, h5] at h4
  norm_num at h4

/-- C7 amended: in every MultiHeadAttention forward pass the q, k and v
inputs are projected through learned bias-free linear maps of width
heads * d_model, the attention core is invoked with the mask fixed at
construction, and the heads are unified back to d_model width through a
learned linear map with bias; no dropout is applied (the dropout submodule
is constructed but unused). -/
theorem c7_mha_structure (heads dm : ℕ) (w : MHAW) (drop : ℝ) (mask : Option Tensor)
    (q k v : Tensor) (b sq sk : ℕ) (hb : 0 < b) (hh : 0 < heads) (hd : 0 < dm)
    (hq : q.shape = [b, sq, dm]) (hk : k.shape = [b, sk, dm]) (hv : v.shape = [b, sk, dm])
    (hm : mask = none ∨ ∃ mk, mask = some mk ∧ mk.shape = [1, sq, sk]) :
    ∃ out, mhaForward (mkMHA heads dm w drop mask) q k v = some out ∧
      out.shape = [b, sq, dm] ∧
      ∀ bb i o, bb < b → i < sq → out.entry [bb, i, o] =
        (∑ c ∈ Finset.range (heads * dm), w.wu o c *
          sdpaSpecEntry mask (projT w.wq dm q b sq heads) (projT w.wk dm k b sk heads)
            (projT w.wv dm v b sk heads) dm sk bb (c / dm) i (c % dm)) + w.bu o :=
  mha_char heads dm w drop mask q k v b sq sk hb hh hd hq hk hv hm

/-- Witness for C7 amended on concrete all-one inputs. -/
theorem c7_mha_structure_witness :
    (onesT [1, 1, 1]).shape = [1, 1, 1] ∧
    ∃ out, mhaForward (mkMHA 1 1 c7w 0 none) (onesT [1, 1, 1]) (onesT [1, 1, 1])
      (onesT [1, 1, 1]) = some out ∧ out.shape = [1, 1, 1] := by
  obtain ⟨out, h1, h2, _⟩ := c7_mha_structure 1 1 c7w 0 none (onesT [1, 1, 1])
    (onesT [1, 1, 1]) (onesT [1, 1, 1]) 1 1 1 (by decide) (by decide) (by decide)
    rfl rfl rfl (Or.inl rfl)
  exact ⟨rfl, out, h1, h2⟩

end

end ML4F
